import Mathlib

/-!
Verification of the Evernote-HTML-to-Markdown converter (`exporter.py`).

Strings are modelled as `List Char` (`Str`).  Python string methods are
translated into executable Lean functions on `Str`:

* `replaceStr s pat rep` models `s.replace(pat, rep)` (left-to-right,
  non-overlapping, continuing after each replacement);
* `pyStrip ws s` models `s.strip(ws_chars)`;
* the individual regular-expression substitutions used by the program are
  each translated into a dedicated recursive scanner, documented at its
  definition.

Python dictionaries holding style attributes are modelled by the `Style`
structure below: the program only ever stores the fixed key set
{italic, bold, underline, strikethrough, sub, sup, code, color, highlight,
link, abbr, align, codeblock, lang, is_p}, and for the boolean keys it only
ever stores the value `True` (the parsers drop falsy entries), so a field
of type `Bool` (absent = `false`) resp. `Option _` (absent = `none`)
faithfully models presence in the dictionary.  The `code` key can hold
`True`, `False` or `'html'`, hence its dedicated value type.

Functions that mutate a dictionary in place (`_format`, `_apply_style`) are
modelled with explicit state passing: they return the final contents of the
dictionary alongside the string result.  Functions that can raise are
modelled with `Option`/`Except`.
-/

abbrev Str := List Char

/-- Shorthand turning a Lean string literal into the `List Char` model. -/
def lit (s : String) : Str := s.data

/-- The characters of Python's `string.whitespace` plus `chr(160)` (nbsp);
this is the module constant `_WHITESPACE` of the source.  (Python's
argument-less `str.strip()` strips all Unicode whitespace; every character
it strips that this program can produce is in this set, so the same
predicate is used for both.) -/
def isWs (c : Char) : Bool :=
  c = ' ' || c = '\t' || c = '\n' || c = '\r' ||
  c = Char.ofNat 11 || c = Char.ofNat 12 || c = Char.ofNat 160

/-- The non-breaking-space character `chr(160)`. -/
def nbspChar : Char := Char.ofNat 160

/-- Backtick, written via its code point. -/
def btChar : Char := Char.ofNat 96

/-- A fenced-code delimiter: three backticks. -/
def fenceStr : Str := [btChar, btChar, btChar]

/-- `s.replace(pat, rep)` for a non-empty pattern: scan left to right,
replace non-overlapping occurrences, continue after each replacement.
(An empty pattern never occurs in the program.) -/
def replaceStr (s pat rep : Str) : Str :=
  match s with
  | [] => []
  | c :: rest =>
    if h : pat ≠ [] ∧ pat.isPrefixOf (c :: rest) then
      rep ++ replaceStr ((c :: rest).drop pat.length) pat rep
    else
      c :: replaceStr rest pat rep
termination_by s.length
decreasing_by
  · simp only [List.length_drop]
    have : 0 < pat.length := List.length_pos.mpr h.1
    simp only [List.length_cons]
    omega
  · simp

/-- Python `sub in s` (substring containment). -/
def containsSub (s pat : Str) : Bool :=
  pat.isPrefixOf s ||
    match s with
    | [] => false
    | _ :: t => containsSub t pat

/-- `s.strip(chars)` for the predicate `p` describing `chars`. -/
def pyStrip (p : Char → Bool) (s : Str) : Str :=
  (s.dropWhile p).rdropWhile p

/-- Leading run stripped by `pyStrip`. -/
def wsLead (p : Char → Bool) (s : Str) : Str := s.takeWhile p

/-- Trailing run stripped by `pyStrip` (taken after the leading run, so
that an all-whitespace string is split as leading ++ core ++ trailing
without double counting). -/
def wsTrail (p : Char → Bool) (s : Str) : Str :=
  (s.dropWhile p).rtakeWhile p

/-- Python `s.lower()` (the program only lowercases ASCII font names). -/
def pyLower (s : Str) : Str := s.map Char.toLower

/-- `_ESCAPE_CHARS = "<>$*`+-_~#["`, the single reserved Markdown
characters of `_ESCAPE_DICT`. -/
def escapeChars : Str := lit ("<>$*") ++ [btChar] ++ lit ("+-_~#[")

/-- `_ESCAPE_DICT` as the ordered association list the Python dict
iterates over: each reserved character `c` maps to `\c`, and finally the
digraph `]]` maps to `]\]`. -/
def escapeDict : List (Str × Str) :=
  escapeChars.map (fun c => ([c], ['\\', c])) ++ [(lit ("]]"), lit ("]\\]"))]

/-- `_escape(string)`: fold of `str.replace` over `_ESCAPE_DICT`. -/
def _escape (s : Str) : Str :=
  escapeDict.foldl (fun acc pr => replaceStr acc pr.1 pr.2) s

/-- `_unescape(string)`: fold of `str.replace` over `_ESCAPE_DICT`, each
entry applied in the reverse direction. -/
def _unescape (s : Str) : Str :=
  escapeDict.foldl (fun acc pr => replaceStr acc pr.2 pr.1) s

/-- Python regex `\s` as used on the strings this program feeds it
(ASCII whitespace plus nbsp; `isWs` covers exactly those). -/
def isReSpace (c : Char) : Bool := isWs c

/-- The substitution `re.sub(r'(\d)\\([\.\)])\s', r'\g<1>\g<2> ', s)` from
`_clean_code_block`: a digit, a backslash, `.` or `)`, and a whitespace
character are replaced by the digit, the punctuation and a space; scanning
continues after each match. -/
def subEscapedNum : Str → Str
  | [] => []
  | c :: rest =>
    match rest with
    | b :: p :: w :: rest2 =>
      if c.isDigit && b = '\\' && (p = '.' || p = ')') && isReSpace w then
        c :: p :: ' ' :: subEscapedNum rest2
      else
        c :: subEscapedNum (b :: p :: w :: rest2)
    | [] => [c]
    | [b] => c :: subEscapedNum [b]
    | [b, p] => c :: subEscapedNum [b, p]
termination_by s => s.length
decreasing_by all_goals (simp only [List.length_cons]; omega)

/-- `_clean_code_block(string)` (the `logging.warning` on empty results is
a side effect outside the model). -/
def _clean_code_block (s : Str) : Str :=
  let s1 := replaceStr s (lit ("&nbsp;")) [' ']
  let s2 := subEscapedNum s1
  _unescape (pyStrip isWs (replaceStr s2 [nbspChar] [' ']))

/-- Value stored under the `code` key of a style dictionary: the program
stores `True`, `False` (only by the `font` branch of `process_tag`) or
`'html'`. -/
inductive CodeV where
  | ctrue
  | cfalse
  | chtml
deriving DecidableEq, Repr

/-- Python truthiness of a `code` value (`False` is falsy, `True` and
`'html'` are truthy). -/
def CodeV.truthy : CodeV → Bool
  | .cfalse => false
  | _ => true

/-- A style dictionary.  Fields model exactly the keys the program ever
stores; a `Bool` field is `true` iff the key is present (the program only
stores `True` for those keys), an `Option` field is `some v` iff the key is
present with value `v`. -/
structure Style where
  italic : Bool := false
  bold : Bool := false
  underline : Bool := false
  strikethrough : Bool := false
  sub : Bool := false
  sup : Bool := false
  highlight : Bool := false
  code : Option CodeV := none
  color : Option Str := none
  link : Option Str := none
  abbr : Option Str := none
  align : Option Str := none
  codeblock : Bool := false
  lang : Option Str := none
  is_p : Bool := false
deriving DecidableEq, Repr

/-- Python truthiness of `dict.get(k, falsy_default)` for a string-valued
key: present and non-empty. -/
def optStrTruthy : Option Str → Bool
  | some l => !l.isEmpty
  | none => false

/-- `attr.get('color', "") in ("rgb(0, 0, 0)", "black", "#000000")` from
`_format`. -/
def colorIsBlack (a : Style) : Bool :=
  match a.color with
  | some c => c = lit ("rgb(0, 0, 0)") || c = lit ("black") || c = lit ("#000000")
  | none => false

-- ---------------------------------------------------------------------
-- URL quoting (`urllib.parse.quote` / `unquote`), used by `_quote`,
-- `_format_link` and the image/link resolvers.
-- ---------------------------------------------------------------------

/-- Value of a hexadecimal digit (upper or lower case). -/
def hexVal (c : Char) : Option Nat :=
  if '0' ≤ c && c ≤ '9' then some (c.toNat - 48)
  else if 'A' ≤ c && c ≤ 'F' then some (c.toNat - 55)
  else if 'a' ≤ c && c ≤ 'f' then some (c.toNat - 87)
  else none

/-- The Windows-1252 decoding of one byte (`errors='replace'`: the five
unassigned bytes decode to U+FFFD). -/
def w1252Char (b : Nat) : Char :=
  if b = 0x80 then Char.ofNat 0x20AC
  else if b = 0x82 then Char.ofNat 0x201A
  else if b = 0x83 then Char.ofNat 0x192
  else if b = 0x84 then Char.ofNat 0x201E
  else if b = 0x85 then Char.ofNat 0x2026
  else if b = 0x86 then Char.ofNat 0x2020
  else if b = 0x87 then Char.ofNat 0x2021
  else if b = 0x88 then Char.ofNat 0x2C6
  else if b = 0x89 then Char.ofNat 0x2030
  else if b = 0x8A then Char.ofNat 0x160
  else if b = 0x8B then Char.ofNat 0x2039
  else if b = 0x8C then Char.ofNat 0x152
  else if b = 0x8E then Char.ofNat 0x17D
  else if b = 0x91 then Char.ofNat 0x2018
  else if b = 0x92 then Char.ofNat 0x2019
  else if b = 0x93 then Char.ofNat 0x201C
  else if b = 0x94 then Char.ofNat 0x201D
  else if b = 0x95 then Char.ofNat 0x2022
  else if b = 0x96 then Char.ofNat 0x2013
  else if b = 0x97 then Char.ofNat 0x2014
  else if b = 0x98 then Char.ofNat 0x2DC
  else if b = 0x99 then Char.ofNat 0x2122
  else if b = 0x9A then Char.ofNat 0x161
  else if b = 0x9B then Char.ofNat 0x203A
  else if b = 0x9C then Char.ofNat 0x153
  else if b = 0x9E then Char.ofNat 0x17E
  else if b = 0x9F then Char.ofNat 0x178
  else if b = 0x81 || b = 0x8D || b = 0x8F || b = 0x90 || b = 0x9D then Char.ofNat 0xFFFD
  else Char.ofNat b

/-- `unquote(s, 'Windows-1252')`: each valid `%XX` escape decodes to the
Windows-1252 character of its byte (a single-byte encoding, so consecutive
escapes decode independently); a `%` not followed by two hex digits is kept
verbatim. -/
def unquoteW1252 : Str → Str
  | [] => []
  | c :: rest =>
    if c = '%' then
      match rest with
      | h1 :: h2 :: rest2 =>
        match hexVal h1, hexVal h2 with
        | some v1, some v2 => w1252Char (16 * v1 + v2) :: unquoteW1252 rest2
        | _, _ => c :: unquoteW1252 (h1 :: h2 :: rest2)
      | [] => [c]
      | [h1] => c :: unquoteW1252 [h1]
    else c :: unquoteW1252 rest
termination_by s => s.length
decreasing_by all_goals (simp only [List.length_cons]; omega)

/-- UTF-8 decoding of a byte sequence with `errors='replace'` (one
replacement character per maximal invalid subpart, as in CPython). -/
def utf8DecodeRepl : List Nat → Str
  | [] => []
  | b :: rest =>
    if b < 0x80 then Char.ofNat b :: utf8DecodeRepl rest
    else if 0xC2 ≤ b && b ≤ 0xDF then
      match rest with
      | b2 :: r2 =>
        if 0x80 ≤ b2 && b2 ≤ 0xBF then
          Char.ofNat ((b - 0xC0) * 64 + (b2 - 0x80)) :: utf8DecodeRepl r2
        else Char.ofNat 0xFFFD :: utf8DecodeRepl (b2 :: r2)
      | [] => [Char.ofNat 0xFFFD]
    else if 0xE0 ≤ b && b ≤ 0xEF then
      match rest with
      | b2 :: r2 =>
        if (if b = 0xE0 then 0xA0 ≤ b2 && b2 ≤ 0xBF
            else if b = 0xED then 0x80 ≤ b2 && b2 ≤ 0x9F
            else 0x80 ≤ b2 && b2 ≤ 0xBF) then
          match r2 with
          | b3 :: r3 =>
            if 0x80 ≤ b3 && b3 ≤ 0xBF then
              Char.ofNat ((b - 0xE0) * 4096 + (b2 - 0x80) * 64 + (b3 - 0x80)) ::
                utf8DecodeRepl r3
            else Char.ofNat 0xFFFD :: utf8DecodeRepl (b3 :: r3)
          | [] => [Char.ofNat 0xFFFD]
        else Char.ofNat 0xFFFD :: utf8DecodeRepl (b2 :: r2)
      | [] => [Char.ofNat 0xFFFD]
    else if 0xF0 ≤ b && b ≤ 0xF4 then
      match rest with
      | b2 :: r2 =>
        if (if b = 0xF0 then 0x90 ≤ b2 && b2 ≤ 0xBF
            else if b = 0xF4 then 0x80 ≤ b2 && b2 ≤ 0x8F
            else 0x80 ≤ b2 && b2 ≤ 0xBF) then
          match r2 with
          | b3 :: r3 =>
            if 0x80 ≤ b3 && b3 ≤ 0xBF then
              match r3 with
              | b4 :: r4 =>
                if 0x80 ≤ b4 && b4 ≤ 0xBF then
                  Char.ofNat ((b - 0xF0) * 0x40000 + (b2 - 0x80) * 4096 +
                    (b3 - 0x80) * 64 + (b4 - 0x80)) :: utf8DecodeRepl r4
                else Char.ofNat 0xFFFD :: utf8DecodeRepl (b4 :: r4)
              | [] => [Char.ofNat 0xFFFD]
            else Char.ofNat 0xFFFD :: utf8DecodeRepl (b3 :: r3)
          | [] => [Char.ofNat 0xFFFD]
        else Char.ofNat 0xFFFD :: utf8DecodeRepl (b2 :: r2)
      | [] => [Char.ofNat 0xFFFD]
    else Char.ofNat 0xFFFD :: utf8DecodeRepl rest
termination_by l => l.length
decreasing_by all_goals (simp only [List.length_cons]; omega)

/-- `unquote(s)` with the default UTF-8 codec: maximal runs of `%XX`
escapes are collected into a byte string and decoded together. -/
def unquoteUtf8Go : Str → List Nat → Str
  | [], acc => utf8DecodeRepl acc.reverse
  | c :: rest, acc =>
    if c = '%' then
      match rest with
      | h1 :: h2 :: rest2 =>
        match hexVal h1, hexVal h2 with
        | some v1, some v2 => unquoteUtf8Go rest2 ((16 * v1 + v2) :: acc)
        | _, _ => utf8DecodeRepl acc.reverse ++ c :: unquoteUtf8Go (h1 :: h2 :: rest2) []
      | [] => utf8DecodeRepl acc.reverse ++ [c]
      | [h1] => utf8DecodeRepl acc.reverse ++ c :: unquoteUtf8Go [h1] []
    else utf8DecodeRepl acc.reverse ++ c :: unquoteUtf8Go rest []
termination_by s _ => s.length
decreasing_by all_goals (simp only [List.length_cons]; omega)

def unquoteUtf8 (s : Str) : Str := unquoteUtf8Go s []

/-- A character `quote` passes through unchanged with `safe='/:,&+'`
(always-safe ASCII letters, digits, `_.-~`, plus the safe set). -/
def quoteSafe (c : Char) : Bool :=
  c.isAlpha || c.isDigit ||
  c = '_' || c = '.' || c = '-' || c = '~' ||
  c = '/' || c = ':' || c = ',' || c = '&' || c = '+'

/-- UTF-8 encoding of one character. -/
def utf8Bytes (c : Char) : List Nat :=
  let n := c.toNat
  if n < 0x80 then [n]
  else if n < 0x800 then [0xC0 + n / 64, 0x80 + n % 64]
  else if n < 0x10000 then
    [0xE0 + n / 4096, 0x80 + n / 64 % 64, 0x80 + n % 64]
  else
    [0xF0 + n / 0x40000, 0x80 + n / 4096 % 64, 0x80 + n / 64 % 64, 0x80 + n % 64]

/-- One uppercase hexadecimal digit. -/
def hexDigitU (n : Nat) : Char :=
  if n < 10 then Char.ofNat (48 + n) else Char.ofNat (55 + n)

/-- Percent-encoding of one byte. -/
def pctEncByte (b : Nat) : Str := ['%', hexDigitU (b / 16), hexDigitU (b % 16)]

/-- `quote(s, safe='/:,&+')`. -/
def pyQuote (s : Str) : Str :=
  s.flatMap (fun c => if quoteSafe c then [c] else (utf8Bytes c).flatMap pctEncByte)

/-- `_quote(string)`. -/
def _quote (s : Str) : Str :=
  let s1 := replaceStr (replaceStr s ['\\'] ['/']) [nbspChar] [' ']
  if unquoteUtf8 s1 = s1 then pyQuote s1 else s1

-- ---------------------------------------------------------------------
-- Module configuration constants (the `# options` block of the source).
-- ---------------------------------------------------------------------

def COLOR_INTERNAL_LINKS : Bool := false
def USE_WIKILINKS : Bool := true
def MD_DEFINITIONS : Bool := false
def INLINE_PREVIEWS : Str := lit ("link")
def IMAGE_MODE : Str := lit ("wiki")

/-- `_format_link(link, string)`. -/
def _format_link (link s : Str) : Str :=
  let s1 := replaceStr (replaceStr (_unescape s) [nbspChar] [' ']) (lit ("\n\n")) ['\n']
  let s2 := if s1.getLast? = some ']' then s1 ++ [' '] else s1
  let fallback := ['['] ++ s2 ++ lit ("](") ++ _quote link ++ [')']
  let is_wikilink := USE_WIKILINKS && (lit (".md")).isSuffixOf link && !link.contains ':'
  if is_wikilink && (lit ("/<*~") ++ [btChar] ++ lit ("=|[]")).all (fun c => !s2.contains c) then
    let lnk := replaceStr (unquoteW1252 (link.take (link.length - 3))) [nbspChar] [' ']
    if lnk.getLast? ≠ some ' ' then
      if lnk = s2 then lit ("[[") ++ lnk ++ lit ("]]")
      else lit ("[[") ++ lnk ++ ['|'] ++ s2 ++ lit ("]]")
    else fallback
  else fallback

/-- `_apply_style(string, attr)`.  The function mutates `attr` in one case
(a link in italics without underline gains `underline=True`); the returned
`Style` is the final contents of the dictionary. -/
def _apply_style (s : Str) (attr : Style) : Str × Style :=
  let a := if optStrTruthy attr.link && attr.italic && !attr.underline then
      { attr with underline := true }
    else attr
  let s := match a.link with
    | some l => if !l.isEmpty then _format_link l s else s
    | none => s
  let s := if a.italic then
      (if s.head? = some '*' || s.getLast? = some '*' then '_' :: s ++ ['_']
       else '*' :: s ++ ['*'])
    else s
  let s := if a.bold then
      (if s.head? = some '*' || s.getLast? = some '*' then
        lit ("__") ++ s ++ lit ("__")
       else lit ("**") ++ s ++ lit ("**"))
    else s
  let s := if a.strikethrough then lit ("~~") ++ s ++ lit ("~~") else s
  let s := match a.abbr with
    | some t => if !t.isEmpty then
        lit ("<abbr title=\"") ++ t ++ lit ("\">") ++ s ++ lit ("</abbr>")
      else s
    | none => s
  let s := if a.sup then lit ("<sup>") ++ s ++ lit ("</sup>") else s
  let s := if a.sub then lit ("<sub>") ++ s ++ lit ("</sub>") else s
  let s := if a.underline then lit ("<u>") ++ s ++ lit ("</u>") else s
  let s := match a.color with
    | some col => if !col.isEmpty then
        lit ("<span style=\"color: ") ++ col ++ lit ("\">") ++ s ++ lit ("</span>")
      else s
    | none => s
  let s := if a.highlight then lit ("==") ++ s ++ lit ("==") else s
  let s := match a.align with
    | some al => if !al.isEmpty && (al = lit ("center") || al = lit ("right")) then
        lit ("<div align=\"") ++ al ++ lit ("\">") ++
          replaceStr s ['\n'] (lit ("<br>")) ++ lit ("</div>")
      else s
    | none => s
  (s, a)

/-- The condition `string and string[0] == '#' and re.match(r'#+ ', string)`
from `_format`: a non-empty run of `#` followed by a space. -/
def headingCond (s : Str) : Bool :=
  let hs := s.takeWhile (fun c => c = '#')
  !hs.isEmpty && (s.drop hs.length).head? = some ' '

/-- `head, string = string.split(' ', maxsplit=1)`: the part before the
first space and the part after it (the split is guarded by `headingCond`,
so a space is present). -/
def splitFirstSpace (s : Str) : Str × Str :=
  (s.takeWhile (fun c => c ≠ ' '), (s.dropWhile (fun c => c ≠ ' ')).drop 1)

/-- Does the string start or end with a `_WHITESPACE` character
(`string.endswith(tuple(_WHITESPACE)) or string.startswith(...)`)? -/
def wsAtBoundary (s : Str) : Bool :=
  (match s.getLast? with | some c => isWs c | none => false) ||
  (match s.head? with | some c => isWs c | none => false)

/-- `_format(string, attr)`.  Returns the string result together with the
final contents of the (mutated) `attr` dictionary.  The `warn` parameter of
the source only routes logging and is omitted.  In the whitespace branch
`off` is `string.find(clean[0])` as in the source (the branch guarantees
`clean` is non-empty). -/
def _format (s : Str) (attr : Style) : Str × Style :=
  if attr = {} || pyStrip isWs s = [] then (s, attr)
  else if wsAtBoundary s then
    match h : pyStrip isWs s with
    | [] => (s, attr)
    | c :: cs =>
      let clean := c :: cs
      let off := s.indexOf c
      let size := clean.length
      let r := _format clean attr
      (s.take off ++ r.1 ++ s.drop (off + size), r.2)
  else if attr.codeblock then
    let lang := attr.lang.getD (lit ("bash"))
    (['\n', '\n'] ++ fenceStr ++ lang ++ ['\n'] ++ _clean_code_block s ++
      ['\n'] ++ fenceStr ++ ['\n', '\n'], attr)
  else
    let code_s : Option Str :=
      match attr.code with
      | some v =>
        if v.truthy then
          if v = .chtml then some (lit ("<code>") ++ s ++ lit ("</code>"))
          else
            let cl := _clean_code_block s
            if cl.isEmpty then none
            else if cl.contains btChar then
              let cl1 := if cl.head? = some btChar then ' ' :: cl else cl
              let cl2 := if cl1.getLast? = some btChar then cl1 ++ [' '] else cl1
              some ([btChar, btChar] ++ cl2 ++ [btChar, btChar])
            else some ([btChar] ++ cl ++ [btChar])
        else some s
      | none => some s
    match code_s with
    | none => ([], attr)
    | some s2 =>
      let attr2 := if colorIsBlack attr then { attr with color := none } else attr
      if s2.head? = some '#' && headingCond s2 then
        let pr := splitFirstSpace s2
        let r := _apply_style pr.2 attr2
        ((pr.1 ++ [' ']) ++ r.1, r.2)
      else
        let r := _apply_style s2 attr2
        (r.1, r.2)
termination_by s.length
decreasing_by
  have hw : wsAtBoundary s = true := by assumption
  have hne : pyStrip isWs s ≠ [] := by rw [h]; simp
  have key : (pyStrip isWs s).length < s.length := by
    rw [wsAtBoundary, Bool.or_eq_true] at hw
    have h1 : (pyStrip isWs s).length ≤ (List.dropWhile isWs s).length := by
      simpa [pyStrip] using
        (List.rdropWhile_prefix isWs (List.dropWhile isWs s)).length_le
    rcases hw with hw | hw
    · -- the string ends in whitespace
      obtain ⟨x, hx, hxw⟩ : ∃ x, s.getLast? = some x ∧ isWs x = true := by
        cases hgl : s.getLast? with
        | none => rw [hgl] at hw; simp at hw
        | some y => rw [hgl] at hw; exact ⟨y, rfl, hw⟩
      have hd : List.dropWhile isWs s ≠ [] := by
        intro h0
        exact hne (by simp [pyStrip, h0])
      obtain ⟨pre, hpre⟩ := List.dropWhile_suffix (l := s) isWs
      have hdl : (List.dropWhile isWs s).getLast? = some x := by
        rw [← hx]
        conv_rhs => rw [← hpre]
        exact (List.getLast?_append_of_ne_nil pre hd).symm
      have hrev : (List.dropWhile isWs s).reverse.head? = some x := by
        rw [List.head?_reverse]; exact hdl
      obtain ⟨t', ht'⟩ : ∃ t', (List.dropWhile isWs s).reverse = x :: t' := by
        cases hrd : (List.dropWhile isWs s).reverse with
        | nil => rw [hrd] at hrev; simp at hrev
        | cons y ys =>
          rw [hrd] at hrev
          simp only [List.head?_cons, Option.some.injEq] at hrev
          exact ⟨ys, by rw [hrev]⟩
      have h2 : (pyStrip isWs s).length ≤ t'.length := by
        have : pyStrip isWs s =
            (List.dropWhile isWs (x :: t')).reverse := by
          rw [pyStrip, List.rdropWhile, ht']
        rw [this, List.length_reverse, List.dropWhile_cons_of_pos hxw]
        exact (List.dropWhile_sublist _).length_le
      have h3 : t'.length + 1 = (List.dropWhile isWs s).length := by
        have := congrArg List.length ht'
        simpa [Nat.add_comm] using this.symm
      have h4 : (List.dropWhile isWs s).length ≤ s.length :=
        (List.dropWhile_sublist _).length_le
      omega
    · -- the string begins in whitespace
      cases s with
      | nil => simp at hw
      | cons a t =>
        simp only [List.head?_cons] at hw
        have h2 : List.dropWhile isWs (a :: t) = List.dropWhile isWs t :=
          List.dropWhile_cons_of_pos hw
        have h3 : (List.dropWhile isWs t).length ≤ t.length :=
          (List.dropWhile_sublist _).length_le
        rw [h2] at h1
        simp only [List.length_cons]
        omega
  rw [h] at key
  simpa using key

/-- Set intersection of two style dictionaries viewed as sets of
(attribute, value) pairs: a pair survives iff it is present with the same
value in both. -/
def Style.inter (a b : Style) : Style where
  italic := a.italic && b.italic
  bold := a.bold && b.bold
  underline := a.underline && b.underline
  strikethrough := a.strikethrough && b.strikethrough
  sub := a.sub && b.sub
  sup := a.sup && b.sup
  highlight := a.highlight && b.highlight
  code := if a.code = b.code then a.code else none
  color := if a.color = b.color then a.color else none
  link := if a.link = b.link then a.link else none
  abbr := if a.abbr = b.abbr then a.abbr else none
  align := if a.align = b.align then a.align else none
  codeblock := a.codeblock && b.codeblock
  lang := if a.lang = b.lang then a.lang else none
  is_p := a.is_p && b.is_p

/-- Set difference of two style dictionaries viewed as sets of
(attribute, value) pairs: a pair of `a` survives iff `b` does not contain
the same pair. -/
def Style.diff (a b : Style) : Style where
  italic := a.italic && !b.italic
  bold := a.bold && !b.bold
  underline := a.underline && !b.underline
  strikethrough := a.strikethrough && !b.strikethrough
  sub := a.sub && !b.sub
  sup := a.sup && !b.sup
  highlight := a.highlight && !b.highlight
  code := if a.code = b.code then none else a.code
  color := if a.color = b.color then none else a.color
  link := if a.link = b.link then none else a.link
  abbr := if a.abbr = b.abbr then none else a.abbr
  align := if a.align = b.align then none else a.align
  codeblock := a.codeblock && !b.codeblock
  lang := if a.lang = b.lang then none else a.lang
  is_p := a.is_p && !b.is_p

/-- `_format_spans(spans)`.  `none` models the `ValueError` that
`texts, styles = zip(*spans)` raises on an empty list. -/
def _format_spans (spans : List (Str × Style)) : Option Str :=
  match spans with
  | [] => none
  | sp :: rest =>
    if rest.isEmpty then some (_format sp.1 sp.2).1  -- `len(spans) == 1`
    else
    let texts := (sp :: rest).map Prod.fst
    let styles := (sp :: rest).map Prod.snd
    if styles.all (fun st => st = sp.2) then
      some (_format texts.flatten sp.2).1
    else
      let base0 := (rest.map Prod.snd).foldl Style.inter sp.2
      let deltas := styles.map (fun st => Style.diff st base0)
      let base := if base0.code ≠ none then { base0 with code := some .chtml }
        else base0
      let chunk := (texts.zip deltas).flatMap (fun p => (_format p.1 p.2).1)
      some (_format chunk base).1

-- ---------------------------------------------------------------------
-- Table reconstructor (`_parse_table`), lines 478-525 of the source.
-- The extraction of the `cells` list of rows from the `tr`/`thead`/
-- `tbody`/`tfoot` children is a traversal of the external tag tree; the
-- model takes that list of rows directly.  Each cell carries its
-- `colspan`/`rowspan` attributes (`none` = attribute absent) and the text
-- `self._merge_tags(tag.children)` that `_parse_cell` strips.
-- ---------------------------------------------------------------------

structure TCell where
  colspan : Option Nat := none
  rowspan : Option Nat := none
  txt : Str := []
deriving DecidableEq, Repr

/-- A table grid: `none` marks a still-unset slot (`None` in the source). -/
abbrev Grid := List (List (Option Str))

/-- `table[i][col] = v` as a functional update. -/
def setCell (g : Grid) (i c : Nat) (v : Option Str) : Grid :=
  g.set i ((g.getD i []).set c v)

/-- `while table[i][col] is not None: col += 1` — the first unset slot at
index `col` or later; `none` models the `IndexError` when the scan runs
off the end of the row. -/
def findFree (row : List (Option Str)) (col : Nat) : Option Nat :=
  match h : row[col]? with
  | none => none
  | some none => some col
  | some (some _) => findFree row (col + 1)
termination_by row.length - col
decreasing_by
  have : col < row.length := by
    by_contra hcol
    rw [List.getElem?_eq_none (by omega)] at h
    exact Option.noConfusion h
  omega

/-- `for j in range(1, int(cell['colspan'])): table[i][col+j] = ''` with
Python's `IndexError` on an out-of-range assignment modelled as `none`. -/
def fillCols (g : Grid) (i col j n : Nat) : Option Grid :=
  if h : j < n then
    if col + j < (g.getD i []).length then
      fillCols (setCell g i (col + j) (some [])) i col (j + 1) n
    else none
  else some g
termination_by n - j

/-- `for j in range(1, int(cell['rowspan'])): table[i+j][col] = '^'`. -/
def fillRows (g : Grid) (i col j n : Nat) : Option Grid :=
  if h : j < n then
    if i + j < g.length && col < (g.getD (i + j) []).length then
      fillRows (setCell g (i + j) col (some ['^'])) i col (j + 1) n
    else none
  else some g
termination_by n - j

/-- The rendered content placed into the grid for one cell:
`_parse_cell(cell)` (merged text, stripped), newlines turned into `<br>`,
pipes escaped, and the empty string replaced by `&nbsp;`. -/
def cellContent (t : Str) : Str :=
  let t0 := pyStrip isWs t
  let t1 := replaceStr (replaceStr t0 ['\n'] (lit ("<br>"))) ['|'] (lit ("\\|"))
  if t1.isEmpty then lit ("&nbsp;") else t1

/-- Place the cells of one row, threading the column cursor exactly like
the source's `col` variable. -/
def placeRow (g : Grid) (i : Nat) (cells : List TCell) (col : Nat) :
    Option Grid :=
  match cells with
  | [] => some g
  | cell :: rest =>
    match g[i]? with
    | none => none
    | some grow =>
      match findFree grow col with
      | none => none
      | some c =>
        let g1 := setCell g i c (some (cellContent cell.txt))
        let g2 := match cell.colspan with
          | some n => fillCols g1 i c 1 n
          | none => some g1
        match g2 with
        | none => none
        | some g2 =>
          let g3 := match cell.rowspan with
            | some n => fillRows g2 i c 1 n
            | none => some g2
          match g3 with
          | none => none
          | some g3 => placeRow g3 i rest c

/-- The row-filling loop `for i, row in enumerate(cells)`. -/
def buildGridGo (g : Grid) (i : Nat) (rows : List (List TCell)) : Option Grid :=
  match rows with
  | [] => some g
  | r :: rest =>
    match placeRow g i r 0 with
    | none => none
    | some g1 => buildGridGo g1 (i + 1) rest

/-- `n_cols = sum(int(c.get('colspan', 1)) for c in cells[0])`. -/
def nColsOf (row0 : List TCell) : Nat :=
  (row0.map (fun c => c.colspan.getD 1)).sum

/-- `sep.join(parts)`. -/
def pyJoin (sep : Str) : List Str → Str
  | [] => []
  | [v] => v
  | v :: v2 :: vs => v ++ sep ++ pyJoin sep (v2 :: vs)

/-- `'|' + '|'.join(row) + '|'`; a `None` entry makes `join` raise a
`TypeError`, modelled as `none`. -/
def emitRow (row : List (Option Str)) : Option Str :=
  if row.all Option.isSome then
    some ('|' :: pyJoin ['|'] (row.map (fun o => o.getD [])) ++ ['|'])
  else none

/-- The synthetic all-dashes separator row for a first row of `n` cells. -/
def sepRow (n : Nat) : Str :=
  '|' :: pyJoin ['|'] (List.replicate n (lit ("---"))) ++ ['|']

/-- `row_txts.insert(1, sep)`. -/
def insertSep (lines : List Str) (sep : Str) : List Str :=
  match lines with
  | [] => [sep]
  | l0 :: rest => l0 :: sep :: rest

/-- `_parse_table`, from the `if not cells` check on (the preceding lines
only collect the rows).  `none` models an uncaught exception
(`IndexError` from an overfull row or span, `TypeError` from a slot no
cell ever filled). -/
def _parse_table (cells : List (List TCell)) : Option Str :=
  match cells with
  | [] => some []
  | [[c]] => some ('\n' :: pyStrip isWs c.txt ++ lit ("\n\n"))
  | first :: _ =>
    let ncols := nColsOf first
    let init : Grid := List.replicate cells.length (List.replicate ncols none)
    match buildGridGo init 0 cells with
    | none => none
    | some g =>
      match g.mapM emitRow with
      | none => none
      | some lines0 =>
        let rowLines := insertSep lines0 (sepRow (g.headD []).length)
        some ('\n' :: pyJoin ['\n'] rowLines ++ lit ("\n\n"))

-- ---------------------------------------------------------------------
-- Media resolver (`_parse_img`).
-- ---------------------------------------------------------------------

/-- `os.path.basename` (split on `/`, the separator occurring in the
sources handled here). -/
def basename (s : Str) : Str := (s.reverse.takeWhile (fun c => c ≠ '/')).reverse

/-- Index of the last occurrence of `c` in `s`. -/
def lastIdxOf (c : Char) (s : Str) : Option Nat :=
  if s.contains c then some (s.length - 1 - s.reverse.indexOf c) else none

/-- `os.path.splitext(p)[0]`: cut at the last dot of the final path
component, unless every character before that dot (within the component)
is itself a dot. -/
def splitextRoot (p : Str) : Str :=
  let base := basename p
  match lastIdxOf '.' base with
  | none => p
  | some i =>
    if (base.take i).any (fun c => c ≠ '.') then
      p.take (p.length - base.length + i)
    else p

/-- `s.split('.')[-1]`: the part after the last dot (the whole string if
there is none). -/
def lastDotComponent (s : Str) : Str := (s.reverse.takeWhile (fun c => c ≠ '.')).reverse

/-- The attributes of an `img` tag and the ancestor context `_parse_img`
consults: `tag.get(...)` for `src`, `data-filename`, `alt`, `width`,
`height` (`none` = attribute absent), plus `tag.parent.name` and
`tag.parent.get('href', '')`. -/
structure ImgTag where
  src : Option Str := none
  dataFilename : Option Str := none
  alt : Option Str := none
  width : Option Str := none
  height : Option Str := none
  parentName : Option Str := none
  parentHref : Option Str := none
deriving DecidableEq, Repr

/-- `_parse_img(tag)`.  Returns the produced text and the final
`self.resources` list; `Except.error` models the
`ValueError("Unknown image mode")`.  The local variable `mode` is computed
as in the source — and, exactly as in the source, never consulted again:
the emission branches test the global `IMAGE_MODE`. -/
def _parse_img (tag : ImgTag) (resources : List Str) :
    Except Unit (Str × List Str) :=
  let src0 := tag.src.getD []
  if src0.isEmpty then .ok ([], resources)
  else if !INLINE_PREVIEWS.isEmpty && tag.parentName = some (lit ("a")) &&
      (lastDotComponent (tag.parentHref.getD []) = lit ("mp4") ||
       lastDotComponent (tag.parentHref.getD []) = lit ("pdf")) then
    .ok ([], resources)
  else
    let external := containsSub src0 (lit ("://"))
    let _mode : Str := if external && IMAGE_MODE = lit ("wiki") then lit ("markdown")
      else IMAGE_MODE
    let src := if external then src0 else _quote src0
    let res1 := if external then resources else resources ++ [src0]
    let name0 := (tag.dataFilename.getD []).take ((tag.dataFilename.getD []).length - 4)
    let name1 := if !name0.isEmpty then name0 else tag.alt.getD []
    let name := if name1.isEmpty then basename src else name1
    let altA := splitextRoot name
    if IMAGE_MODE = lit ("html") then
      let pairs : List (Str × Option Str) :=
        [(lit ("src"), some src), (lit ("alt"), some altA),
         (lit ("width"), tag.width), (lit ("height"), tag.height)]
      let parts := pairs.filterMap (fun kv =>
        match kv.2 with
        | some v => if v.isEmpty then none
            else some (kv.1 ++ lit ("=\"") ++ v ++ lit ("\""))
        | none => none)
      .ok (lit ("<img ") ++ List.intercalate [' '] parts ++ ['>'], res1)
    else if IMAGE_MODE = lit ("markdown") || IMAGE_MODE = lit ("wiki") then
      let size := (match tag.width with
          | some w => if w.isEmpty then [] else '|' :: w
          | none => []) ++
        (match tag.height with
          | some hgt => if hgt.isEmpty then [] else 'x' :: hgt
          | none => [])
      if IMAGE_MODE = lit ("wiki") then
        .ok (lit ("![[") ++ unquoteUtf8 src ++ ['|'] ++ altA ++ size ++ lit ("]]"), res1)
      else
        .ok (lit ("![") ++ altA ++ size ++ lit ("](") ++ src ++ [')'], res1)
    else .error ()

-- ---------------------------------------------------------------------
-- Style decoder (`decode_style`, `parse_span_style`) and link resolver
-- (`_parse_link`).
-- ---------------------------------------------------------------------

def rbraceChar : Char := Char.ofNat 125

/-- `re.sub("\"(;} |;)\"", "\"Courier New\"", prop)`: a quoted `;} ` or
`;` token (the known Evernote defect) becomes a quoted default monospace
family name. -/
def subFontDefect : Str → Str
  | [] => []
  | c :: rest =>
    if c = '"' then
      match rest with
      | a :: b :: d :: e :: r4 =>
        if a = ';' && b = rbraceChar && d = ' ' && e = '"' then
          lit ("\"Courier New\"") ++ subFontDefect r4
        else if a = ';' && b = '"' then
          lit ("\"Courier New\"") ++ subFontDefect (d :: e :: r4)
        else c :: subFontDefect (a :: b :: d :: e :: r4)
      | a :: b :: r2 =>
        if a = ';' && b = '"' then
          lit ("\"Courier New\"") ++ subFontDefect r2
        else c :: subFontDefect (a :: b :: r2)
      | r => c :: subFontDefect r
    else c :: subFontDefect rest
termination_by s => s.length
decreasing_by all_goals (simp only [List.length_cons]; omega)

/-- Lookup in the token dictionary built by
`dict([tuple(x.strip() for x in t.split(':', maxsplit=1)) for t in tokens])`
(later duplicate keys overwrite earlier ones). -/
def tokGet (prs : List (Str × Str)) (k : Str) : Option Str :=
  (prs.reverse.find? (fun pr => pr.1 = k)).map Prod.snd

/-- `t.split(':', maxsplit=1)` with both parts stripped; a token without a
colon yields a 1-tuple, on which the `dict(...)` constructor raises —
modelled as `Except.error`. -/
def tokenPairs (toks : List Str) : Except Unit (List (Str × Str)) :=
  toks.mapM (fun t =>
    if t.contains ':' then
      .ok (pyStrip isWs (t.takeWhile (fun c => c ≠ ':')),
           pyStrip isWs ((t.dropWhile (fun c => c ≠ ':')).drop 1))
    else .error ())

/-- `parse_span_style(tokens)`: `get` is `tokens.get`, and `td` the value
stored under `text-decoration` after the `text-decoration-line` alias
resolution (the only key the aliasing touches).  Falsy values are dropped,
which is the structure's default. -/
def parse_span_style (get : Str → Option Str) (td : Option Str) : Style where
  italic := get (lit ("font-style")) == some (lit ("italic"))
  bold := get (lit ("font-weight")) == some (lit ("bold"))
  underline := td == some (lit ("underline"))
  strikethrough := td == some (lit ("line-through"))
  sub := get (lit ("vertical-align")) == some (lit ("sub"))
  sup := get (lit ("vertical-align")) == some (lit ("super"))
  code := if containsSub (pyLower ((get (lit ("font-family"))).getD []))
      (lit ("courier")) then some .ctrue else none
  color := match get (lit ("color")) with
    | some v => if v.isEmpty then none else some v
    | none => none
  highlight :=
    let bg := (get (lit ("background-color"))).getD (lit ("white"))
    !(bg == lit ("rgb(255, 255, 255)") || bg == lit ("white") ||
      bg == lit ("#FFFFFF") || bg == lit ("transparent"))

/-- `decode_style(prop, parser)`. -/
def decode_style (parser : (Str → Option Str) → Option Str → Style)
    (prop : Str) : Except Unit Style :=
  if prop.isEmpty then .ok {}
  else
    let p1 := subFontDefect prop
    let toks := ((p1.splitOn ';').filter (fun t => !t.isEmpty)).map (pyStrip isWs)
    match tokenPairs toks with
    | .error e => .error e
    | .ok prs =>
      let td := match tokGet prs (lit ("text-decoration-line")) with
        | some v => some v
        | none => tokGet prs (lit ("text-decoration"))
      .ok (parser (fun k => tokGet prs k) td)

/-- `dict.update`: attributes present in `d` overwrite those of `a`. -/
def Style.update (a d : Style) : Style where
  italic := a.italic || d.italic
  bold := a.bold || d.bold
  underline := a.underline || d.underline
  strikethrough := a.strikethrough || d.strikethrough
  sub := a.sub || d.sub
  sup := a.sup || d.sup
  highlight := a.highlight || d.highlight
  code := match d.code with | some v => some v | none => a.code
  color := match d.color with | some v => some v | none => a.color
  link := match d.link with | some v => some v | none => a.link
  abbr := match d.abbr with | some v => some v | none => a.abbr
  align := match d.align with | some v => some v | none => a.align
  codeblock := a.codeblock || d.codeblock
  lang := match d.lang with | some v => some v | none => a.lang
  is_p := a.is_p || d.is_p

/-- The attributes of an anchor tag that `_parse_link` consults. -/
structure ATag where
  href : Option Str := none
  style : Option Str := none
deriving DecidableEq, Repr

/-- The mutable per-document lists of the parser object. -/
structure PState where
  internal_links : List Str := []
  resources : List Str := []
deriving DecidableEq, Repr

/-- `HTMLParser._parse_link(tag, txt, style)`.  Returns the text, the
final contents of the (mutated) `style` dictionary and the final parser
state; `Except.error` models an exception escaping from `decode_style`. -/
def _parse_link (tag : ATag) (txt : Str) (style : Style) (st : PState) :
    Except Unit (Str × Style × PState) :=
  let link := tag.href.getD []
  if link.isEmpty then .ok (txt, style, st)
  else if link = lit ("https:") then .ok (txt, style, st)
  else if link = txt then .ok (txt, style, st)
  else if link.head? = some '#' then .ok (txt, style, st)
  else
    match decode_style parse_span_style (tag.style.getD []) with
    | .error e => .error e
    | .ok d =>
      let style1 := style.update d
      let inter := style1.color == some (lit ("rgb(105, 170, 53)")) ||
        style1.color == some (lit ("#69aa35"))
      if !link.contains ':' then
        if (lit (".html")).isSuffixOf link then
          let st1 := { st with
            internal_links := st.internal_links ++ [unquoteUtf8 link] }
          let link1 := replaceStr link (lit (".html")) (lit (".md"))
          let style2 := if !COLOR_INTERNAL_LINKS && inter then
              { style1 with color := none }
            else style1
          .ok (txt, { style2 with link := some link1 }, st1)
        else
          let st1 := { st with resources := st.resources ++ [link] }
          let is_inline := ((lit ("mp4")).isSuffixOf link ||
            (lit ("pdf")).isSuffixOf link) && !INLINE_PREVIEWS.isEmpty
          let style2 := if !COLOR_INTERNAL_LINKS && inter then
              { style1 with color := none }
            else style1
          if is_inline then
            .ok (lit ("![") ++ basename (tag.href.getD []) ++ lit ("](") ++
              _quote link ++ [')'], style2, st1)
          else .ok (txt, { style2 with link := some link }, st1)
      else
        .ok (txt, { style1 with link := some link }, st)

-- ---------------------------------------------------------------------
-- Finalizer (`finalize`, `_replace_cr_except_code`).
-- ---------------------------------------------------------------------

/-- The character class `[&nbsp;| ]` of the lookahead in
`re.sub(r"&nbsp;(?![&nbsp;| ]+)", " ", txt)`. -/
def nbspClassChar (c : Char) : Bool :=
  c = '&' || c = 'n' || c = 'b' || c = 's' || c = 'p' || c = ';' ||
  c = '|' || c = ' '

/-- `re.sub(r"&nbsp;(?![&nbsp;| ]+)", " ", txt)`: a literal `&nbsp;` whose
next character is not in the class (or which ends the string) becomes a
space. -/
def subNbspSpace : Str → Str
  | [] => []
  | c :: rest =>
    if (lit ("&nbsp;")).isPrefixOf (c :: rest) then
      let after := (c :: rest).drop 6
      if (match after.head? with
          | some a => !nbspClassChar a
          | none => true) then
        ' ' :: subNbspSpace after
      else c :: subNbspSpace rest
    else c :: subNbspSpace rest
termination_by s => s.length
decreasing_by all_goals (simp only [List.length_drop, List.length_cons]; omega)

/-- `re.sub(r" +\n", "\n", txt)`: a maximal run of spaces directly before
a newline is removed. -/
def subTrailingSpaces : Str → Str
  | [] => []
  | c :: rest =>
    if c = ' ' then
      let run := rest.takeWhile (fun x => x = ' ')
      let after := rest.drop run.length
      if after.head? = some '\n' then '\n' :: subTrailingSpaces (after.drop 1)
      else c :: subTrailingSpaces rest
    else c :: subTrailingSpaces rest
termination_by s => s.length
decreasing_by
  all_goals simp only [List.length_drop, List.length_cons]
  all_goals
    try have h9 : (rest.takeWhile (fun x => x = ' ')).length ≤ rest.length :=
      (List.takeWhile_sublist _).length_le
  all_goals omega

/-- Number of consecutive leading copies of `&nbsp;`. -/
def takeNbspRun (s : Str) : Nat :=
  if h : (lit ("&nbsp;")).isPrefixOf s then 1 + takeNbspRun (s.drop 6)
  else 0
termination_by s.length
decreasing_by
  have hp : (lit ("&nbsp;")).length ≤ s.length :=
    (List.isPrefixOf_iff_prefix.mp h).length_le
  have h6 : (lit ("&nbsp;")).length = 6 := by decide
  simp only [List.length_drop]
  omega

/-- After a `\n`, the remainder of a match of
`\n\**(&nbsp;)+\**\n` (stars, at least one `&nbsp;`, stars, `\n`, each
run maximal — backtracking never extends this pattern): returns the text
after the consumed final newline, or `none` if the tail does not match. -/
def loneNbspTail (rest : Str) : Option { t : Str // t.length ≤ rest.length } :=
  let s1 := rest.dropWhile (fun x => x = '*')
  let n := takeNbspRun s1
  if n = 0 then none
  else
    let s2 := (s1.drop (6 * n)).dropWhile (fun x => x = '*')
    if s2.head? = some '\n' then
      some ⟨s2.drop 1, by
        have h1 : s1.length ≤ rest.length := (List.dropWhile_sublist _).length_le
        have h2 : s2.length ≤ (s1.drop (6 * n)).length :=
          (List.dropWhile_sublist _).length_le
        simp only [List.length_drop] at *
        omega⟩
    else none

/-- `re.sub(r"\n\**(&nbsp;)+\**\n", "\n\n", txt)`: a line consisting of
one or more `&nbsp;`, possibly wrapped in `*`, collapses to an empty
line.  The trailing newline is part of the match, so scanning resumes
after it. -/
def subLoneNbsp : Str → Str
  | [] => []
  | c :: rest =>
    if c = '\n' then
      match loneNbspTail rest with
      | some t => '\n' :: '\n' :: subLoneNbsp t.1
      | none => c :: subLoneNbsp rest
    else c :: subLoneNbsp rest
termination_by s => s.length
decreasing_by
  all_goals simp only [List.length_cons]
  all_goals try have h9 := t.2
  all_goals omega

/-- `re.sub(r"\n\n\n+", "\n\n", txt)`: three or more consecutive newlines
collapse to two. -/
def subMultiNewline : Str → Str
  | [] => []
  | c :: rest =>
    if c = '\n' then
      let run := rest.takeWhile (fun x => x = '\n')
      if run.length ≥ 2 then '\n' :: '\n' :: subMultiNewline (rest.drop run.length)
      else c :: subMultiNewline rest
    else c :: subMultiNewline rest
termination_by s => s.length
decreasing_by
  all_goals simp only [List.length_drop, List.length_cons]
  all_goals omega

/-- `re.sub(r"\n(&nbsp;)", r"\n \1", txt)`: a space is inserted between a
newline and a directly following `&nbsp;`; the match consumes the
`&nbsp;`. -/
def subNbspLineStart : Str → Str
  | [] => []
  | c :: rest =>
    if c = '\n' && (lit ("&nbsp;")).isPrefixOf rest then
      '\n' :: ' ' :: lit ("&nbsp;") ++ subNbspLineStart (rest.drop 6)
    else c :: subNbspLineStart rest
termination_by s => s.length
decreasing_by
  all_goals simp only [List.length_drop, List.length_cons]
  all_goals omega

/-- `'&nbsp;' * n`. -/
def nbspRepeat : Nat → Str
  | 0 => []
  | n + 1 => lit ("&nbsp;") ++ nbspRepeat n

/-- After the leading `\n`, the remainder of a match of
`\n\n( {4,})([^-\s1])`: the second newline, a maximal run of at least four
spaces and a character outside `-`/whitespace/`1` (backtracking never
extends this pattern).  Returns the space count, the matched character and
the text after it, or `none` if the tail does not match. -/
def indentMimicParts (rest : Str) :
    Option ((Nat × Char) × { t : Str // t.length ≤ rest.length }) :=
  if rest.head? = some '\n' then
    let sp := (rest.drop 1).takeWhile (fun x => x = ' ')
    let after := (rest.drop 1).drop sp.length
    match after.head? with
    | some ch =>
      if sp.length ≥ 4 && !(ch = '-' || isReSpace ch || ch = '1') then
        some ((sp.length, ch), ⟨after.drop 1, by
          have h1 : after.length ≤ rest.length := by
            show ((rest.drop 1).drop sp.length).length ≤ rest.length
            simp only [List.length_drop]
            omega
          simp only [List.length_drop]
          omega⟩)
      else none
    | none => none
  else none

/-- `re.sub(r"\n\n( {4,})([^-\s1])", _nbsp, seg)` where
`_nbsp` rewrites the match to `'\n\n ' + '&nbsp;'*len(spaces) + ch`:
whitespace mimicking a code block is made explicit. -/
def subIndentMimic : Str → Str
  | [] => []
  | c :: rest =>
    if c = '\n' then
      match indentMimicParts rest with
      | some (pr, t) =>
        '\n' :: '\n' :: ' ' :: nbspRepeat pr.1 ++ pr.2 :: subIndentMimic t.1
      | none => c :: subIndentMimic rest
    else c :: subIndentMimic rest
termination_by s => s.length
decreasing_by
  all_goals simp only [List.length_cons]
  all_goals try have h9 := t.2
  all_goals omega

/-- The negative-lookahead body `(?!\n| *[\|\-|1|:|>])` of the
single-newline substitution, applied to the text after the newline: true
iff the lookahead pattern matches (so the substitution is blocked). -/
def crLookaheadBlocks (rest : Str) : Bool :=
  rest.head? = some '\n' ||
    (match (rest.dropWhile (fun x => x = ' ')).head? with
     | some c => c = '|' || c = '-' || c = '1' || c = ':' || c = '>'
     | none => false)

/-- `re.sub(r"(\S)\n(?!\n| *[\|\-|1|:|>])", rf"\1 {cr_}\n", seg)`: a hard
break marker is spliced before a single newline preceded by a non-space
character and not starting a blank line, list, table row, definition or
quote. -/
def subHardBreak (cr : Str) : Str → Str
  | [] => []
  | c :: rest =>
    if !isReSpace c && rest.head? = some '\n' &&
        !crLookaheadBlocks (rest.drop 1) then
      c :: ' ' :: cr ++ '\n' :: subHardBreak cr (rest.drop 1)
    else c :: subHardBreak cr rest
termination_by s => s.length
decreasing_by
  all_goals simp only [List.length_drop, List.length_cons]
  all_goals omega

/-- The two substitutions applied to a non-code segment. -/
def transformSeg (cr seg : Str) : Str := subHardBreak cr (subIndentMimic seg)

/-- Position of the first triple backtick. -/
def firstTriple : Str → Option Nat
  | [] => none
  | c :: rest =>
    if fenceStr.isPrefixOf (c :: rest) then some 0
    else (firstTriple rest).map (fun n => n + 1)

/-- `_replace_cr_except_code(txt, cr_)`.  The source collects the matches
of `` ```([\S\s]+?)``` `` with `re.finditer`, slices the text into
alternating normal/code segments and rewrites only the normal ones; this
is realized here by recursion over the matches.  A match starts at the
first triple backtick `p` admitting a closing fence; the lazy content
group (at least one character) ends at the first triple backtick at
position `p + 4` or later — if there is none, no opening position admits a
match at all and the remaining text is a single normal segment. -/
def _replace_cr_except_code (txt cr : Str) : Str :=
  match h1 : firstTriple txt with
  | none => transformSeg cr txt
  | some p =>
    match firstTriple (txt.drop (p + 4)) with
    | none => transformSeg cr txt
    | some q =>
      transformSeg cr (txt.take p) ++
        (txt.drop p).take (p + 4 + q + 3 - p) ++
        _replace_cr_except_code (txt.drop (p + 4 + q + 3)) cr
termination_by txt.length
decreasing_by
  simp only [List.length_drop]
  rcases txt with _ | ⟨c, rest⟩
  · simp [firstTriple] at h1
  · simp only [List.length_cons]
    omega

/-- `finalize(txt, cr_)`. -/
def finalize (txt cr : Str) : Str :=
  let t1 := replaceStr txt [nbspChar] (lit ("&nbsp;"))
  let t2 := replaceStr t1 ['\t'] (lit ("    "))
  let t3 := replaceStr t2 [Char.ofNat 0xFEFF] []
  let t4 := subNbspSpace t3
  let t5 := subTrailingSpaces t4
  let t6 := subLoneNbsp t5
  let t7 := subMultiNewline t6
  let t8 := subNbspLineStart t7
  let t9 := _replace_cr_except_code (pyStrip isWs t8) cr ++ ['\n']
  pyStrip isWs t9 ++ ['\n']

-- ---------------------------------------------------------------------
-- `HTMLParser.parse` (the body lookup and fatal error).
-- ---------------------------------------------------------------------

/-- A node of the parsed document tree: a text leaf (`NavigableString`,
whose `name` is `None`) or an element with a tag name and children.
Attributes are omitted: `parse` never consults them. -/
inductive Node where
  | text : Str → Node
  | elem : Str → List Node → Node

/-- `el.name` (`None` for a `NavigableString`). -/
def nodeName : Node → Option Str
  | .text _ => none
  | .elem n _ => some n

/-- `next((el for el in tag.children if el.name == 'body'), None)`. -/
def findBody (children : List Node) : Option Node :=
  children.find? (fun el => nodeName el == some (lit ("body")))

/-- `HTMLParser.parse(self)` for a document whose root element has the
given children.  `processTag` is the tree walker `self.process_tag`
(passed as a parameter: `parse` only applies it after the body check);
`cr` is `self.cr_` (the constructor default is `r"\\"`).  The `error`
value models `raise ValueError("No content found")`, which aborts the
document before any text is produced. -/
def HTMLParser.parse (rootChildren : List Node)
    (processTag : Node → Str × Style) (cr : Str) : Except Str Str :=
  match findBody rootChildren with
  | none => .error (lit ("No content found"))
  | some b => .ok (finalize (processTag b).1 cr)

/-- Block structure of a partially unescaped string over the reserved
alphabet: a character whose key was already processed stands bare, any
other is preceded by a backslash.  (Proof device for the escape/unescape
round trip.) -/
def escMark (pr : List Char) (d : Char) : Str :=
  if d ∈ pr then [d] else ['\\', d]

-- =====================================================================
-- Theorems.
-- =====================================================================

-- ---------------------------------------------------------------------
-- Generic facts about `replaceStr`.
-- ---------------------------------------------------------------------

theorem replaceStr_nil (pat rep : Str) : replaceStr [] pat rep = [] := by
  rw [replaceStr]

/-- Replacing a single character is the per-character map. -/
theorem replaceStr_single (c : Char) (rep s : Str) :
    replaceStr s [c] rep =
      s.flatMap (fun d => if d = c then rep else [d]) := by
  induction s with
  | nil => simp [replaceStr]
  | cons d t ih =>
    rw [replaceStr]
    by_cases hd : d = c
    · subst hd
      have hpre : [d].isPrefixOf (d :: t) = true := by
        simp [List.isPrefixOf]
      simp [hpre, ih]
    · have hpre : [c].isPrefixOf (d :: t) = false := by
        simp [List.isPrefixOf]
        exact fun hcd => absurd hcd.symm hd
      simp [hpre, ih, hd]

/-- A pattern whose first character does not occur in the string replaces
nothing. -/
theorem replaceStr_id_of_head_not_mem (c : Char) (pt rep s : Str)
    (h : c ∉ s) : replaceStr s (c :: pt) rep = s := by
  induction s with
  | nil => rw [replaceStr]
  | cons d t ih =>
    rw [replaceStr]
    have hcd : ¬c = d := fun hc => h (hc ▸ List.mem_cons_self d t)
    have hpre : (c :: pt).isPrefixOf (d :: t) = false := by
      simp [List.isPrefixOf]
      exact fun hcd2 => absurd hcd2 hcd
    have hih := ih (fun hm => h (List.mem_cons_of_mem d hm))
    simp [hpre, hih]

-- ---------------------------------------------------------------------
-- C6: `_unescape (_escape s) = s` on the reserved alphabet.
-- ---------------------------------------------------------------------

/-- The escaping fold over a list of single-character keys not containing
the backslash marks each occurrence of a key with a backslash. -/
theorem foldl_escape_flatMap (ks : List Char) (s : Str)
    (hnd : ks.Nodup) (hbs : '\\' ∉ ks) :
    List.foldl (fun acc c => replaceStr acc [c] ['\\', c]) s ks =
      s.flatMap (fun d => if d ∈ ks then ['\\', d] else [d]) := by
  induction ks generalizing s with
  | nil => simp
  | cons k ks ih =>
    have hnd' : ks.Nodup := hnd.of_cons
    have hkk : k ∉ ks := by
      intro hm
      exact (List.nodup_cons.mp hnd).1 hm
    have hbs' : '\\' ∉ ks := fun hm => hbs (List.mem_cons_of_mem _ hm)
    have hbk : '\\' ≠ k := fun he => hbs (he ▸ List.mem_cons_self k ks)
    rw [List.foldl_cons, replaceStr_single, ih _ hnd' hbs',
      List.flatMap_assoc]
    apply List.flatMap_congr
    intro d _
    by_cases hd : d = k
    · subst hd
      simp [hkk, hbs', hbk]
    · simp [hd, List.mem_cons]

theorem escMark_mem {pr : List Char} {d : Char} (h : d ∈ pr) :
    escMark pr d = [d] := by simp [escMark, h]

theorem escMark_not_mem {pr : List Char} {d : Char} (h : d ∉ pr) :
    escMark pr d = ['\\', d] := by simp [escMark, h]

/-- A cons step of `replaceStr` when the pattern does not match at the
head. -/
theorem replaceStr_cons_no_match (c : Char) (rest pat rep : Str)
    (h : pat.isPrefixOf (c :: rest) = false) :
    replaceStr (c :: rest) pat rep = c :: replaceStr rest pat rep := by
  rw [replaceStr]
  simp [h]

/-- One unescaping step: in a string of blocks that are either a bare
non-backslash character (an already-unescaped key) or a backslash-marked
character, replacing `\k` by `k` unescapes exactly the `k` blocks. -/
theorem replaceStr_unesc_step (k : Char) (pr : List Char) (s : Str)
    (hs : ∀ c ∈ s, c ≠ '\\') :
    replaceStr (s.flatMap (escMark pr)) ['\\', k] [k] =
      s.flatMap (escMark (k :: pr)) := by
  induction s with
  | nil => simp [replaceStr]
  | cons d t ih =>
    have hd : d ≠ '\\' := hs d (List.mem_cons_self d t)
    have iht := ih (fun c hc => hs c (List.mem_cons_of_mem d hc))
    rw [List.flatMap_cons, List.flatMap_cons]
    have hnomatch : ∀ t2 : Str, (['\\', k]).isPrefixOf (d :: t2) = false := by
      intro t2
      simp [List.isPrefixOf]
      exact fun he => absurd he.symm hd
    by_cases hdpr : d ∈ pr
    · -- block `[d]`, `d` is not a backslash, so no match starts here
      have hdk : d ∈ k :: pr := List.mem_cons_of_mem k hdpr
      rw [escMark_mem hdpr, escMark_mem hdk, List.singleton_append,
        List.singleton_append,
        replaceStr_cons_no_match _ _ _ _ (hnomatch _), iht]
    · by_cases hdk : d = k
      · -- block `['\\', k]`: the pattern matches and is replaced
        subst hdk
        have hdm : d ∈ d :: pr := List.mem_cons_self d pr
        rw [escMark_not_mem hdpr, escMark_mem hdm]
        rw [List.cons_append, List.singleton_append, replaceStr]
        have hpre : (['\\', d]).isPrefixOf
            ('\\' :: d :: t.flatMap (escMark pr)) = true := by
          simp [List.isPrefixOf]
        simp [hpre, iht]
      · -- block `['\\', d]` with `d ≠ k`: no match at the backslash, and
        -- none at `d` either
        have hdm : d ∉ k :: pr := by
          simp [List.mem_cons, hdk, hdpr]
        rw [escMark_not_mem hdpr, escMark_not_mem hdm]
        rw [List.cons_append, List.singleton_append]
        have hpre : (['\\', k]).isPrefixOf
            ('\\' :: d :: t.flatMap (escMark pr)) = false := by
          simp [List.isPrefixOf]
          exact fun he => absurd he.symm hdk
        rw [replaceStr_cons_no_match _ _ _ _ hpre,
          replaceStr_cons_no_match _ _ _ _ (hnomatch _), iht]
        simp

/-- The unescaping fold over single-character keys. -/
theorem foldl_unescape_flatMap (ks pr : List Char) (s : Str)
    (hs : ∀ c ∈ s, c ≠ '\\') :
    List.foldl (fun acc k => replaceStr acc ['\\', k] [k])
        (s.flatMap (escMark pr)) ks =
      s.flatMap (escMark (ks.reverse ++ pr)) := by
  induction ks generalizing pr with
  | nil => simp
  | cons k ks ih =>
    rw [List.foldl_cons, replaceStr_unesc_step k pr s hs, ih (k :: pr)]
    apply List.flatMap_congr
    intro d _
    have hiff : d ∈ ks.reverse ++ k :: pr ↔ d ∈ (k :: ks).reverse ++ pr := by
      simp only [List.reverse_cons, List.append_assoc, List.mem_append,
        List.mem_cons, List.mem_singleton, List.mem_reverse]
      tauto
    by_cases hd : d ∈ ks.reverse ++ k :: pr
    · rw [escMark_mem hd, escMark_mem (hiff.mp hd)]
    · rw [escMark_not_mem hd, escMark_not_mem (fun hx => hd (hiff.mpr hx))]

/-- On strings over the reserved alphabet, `_escape` marks every character
with a backslash (and the final `]]` entry finds nothing to replace). -/
theorem escape_on_alphabet (s : Str) (h : ∀ c ∈ s, c ∈ escapeChars) :
    _escape s = s.flatMap (fun d => ['\\', d]) := by
  have hnodup : escapeChars.Nodup := by decide
  have hbs : '\\' ∉ escapeChars := by decide
  have hrb : ']' ∉ escapeChars := by decide
  unfold _escape escapeDict
  rw [List.foldl_append]
  have h1 : List.foldl (fun acc pr => replaceStr acc pr.1 pr.2) s
      (escapeChars.map (fun c => ([c], ['\\', c]))) =
      List.foldl (fun acc c => replaceStr acc [c] ['\\', c]) s escapeChars := by
    rw [List.foldl_map]
  rw [h1, foldl_escape_flatMap escapeChars s hnodup hbs]
  have h2 : s.flatMap (fun d => if d ∈ escapeChars then ['\\', d] else [d]) =
      s.flatMap (fun d => ['\\', d]) :=
    List.flatMap_congr (fun d hd => by rw [if_pos (h d hd)])
  rw [List.foldl_cons, List.foldl_nil, h2]
  have hrepl : lit ("]]") = ']' :: [']'] := by decide
  rw [hrepl]
  apply replaceStr_id_of_head_not_mem
  intro hm
  rcases List.mem_flatMap.mp hm with ⟨d, hd, hmem⟩
  rcases List.mem_cons.mp hmem with he | he
  · exact absurd he (by decide)
  · rcases List.mem_singleton.mp he with rfl
    exact hrb (h _ hd)

/-- `_unescape` undoes the backslash marking on strings over the reserved
alphabet. -/
theorem unescape_escaped (s : Str) (h : ∀ c ∈ s, c ∈ escapeChars) :
    _unescape (s.flatMap (fun d => ['\\', d])) = s := by
  have hbs : ∀ c ∈ s, c ≠ '\\' := fun c hc he =>
    (by decide : '\\' ∉ escapeChars) (he ▸ h c hc)
  unfold _unescape escapeDict
  rw [List.foldl_append]
  have h1 : List.foldl (fun acc pr => replaceStr acc pr.2 pr.1)
      (s.flatMap (fun d => ['\\', d]))
      (escapeChars.map (fun c => ([c], ['\\', c]))) =
      List.foldl (fun acc c => replaceStr acc ['\\', c] [c])
        (s.flatMap (fun d => ['\\', d])) escapeChars := by
    rw [List.foldl_map]
  have h2 : s.flatMap (fun d => ['\\', d]) = s.flatMap (escMark []) :=
    List.flatMap_congr (fun d _ => by simp [escMark])
  rw [h1, h2, foldl_unescape_flatMap escapeChars [] s hbs]
  have h3 : s.flatMap (escMark (escapeChars.reverse ++ [])) =
      s.flatMap (fun d => [d]) :=
    List.flatMap_congr (fun d hd => by
      apply escMark_mem
      simp only [List.append_nil, List.mem_reverse]
      exact h d hd)
  rw [h3, List.flatMap_singleton']
  have hrepl : lit ("]\\]") = ']' :: ['\\', ']'] := by decide
  rw [List.foldl_cons, List.foldl_nil, hrepl]
  apply replaceStr_id_of_head_not_mem
  intro hm
  exact (by decide : ']' ∉ escapeChars) (h _ hm)

/-- C6: for every string `s` over the reserved-character alphabet
`_ESCAPE_CHARS`, unescaping the escaped string returns the original:
`_unescape(_escape(s)) == s`. -/
theorem c6_escape_unescape_roundtrip (s : Str)
    (h : ∀ c ∈ s, c ∈ escapeChars) :
    _unescape (_escape s) = s := by
  rw [escape_on_alphabet s h, unescape_escaped s h]

/-- Witness for C6 at the concrete reserved string `*#[-~`. -/
theorem c6_escape_unescape_roundtrip_witness :
    (∀ c ∈ lit ("*#[-~"), c ∈ escapeChars) ∧
      _unescape (_escape (lit ("*#[-~"))) = lit ("*#[-~") :=
  ⟨by decide, c6_escape_unescape_roundtrip _ (by decide)⟩

-- ---------------------------------------------------------------------
-- Facts about `pyStrip` and the whitespace decomposition.
-- ---------------------------------------------------------------------

theorem rdropWhile_append_rtakeWhile (p : Char → Bool) (l : Str) :
    l.rdropWhile p ++ l.rtakeWhile p = l := by
  rw [List.rdropWhile, List.rtakeWhile, ← List.reverse_append,
    List.takeWhile_append_dropWhile, List.reverse_reverse]

/-- Any string splits as its stripped leading run, its stripped core and
its stripped trailing run. -/
theorem strip_decomp (p : Char → Bool) (s : Str) :
    s = wsLead p s ++ pyStrip p s ++ wsTrail p s := by
  unfold wsLead pyStrip wsTrail
  conv_lhs => rw [← List.takeWhile_append_dropWhile (p := p) (l := s)]
  rw [List.append_assoc]
  congr 1
  exact (rdropWhile_append_rtakeWhile p _).symm

theorem wsLead_all (p : Char → Bool) (s : Str) :
    ∀ c ∈ wsLead p s, p c = true := fun _ hc => List.mem_takeWhile_imp hc

theorem wsTrail_all (p : Char → Bool) (s : Str) :
    ∀ c ∈ wsTrail p s, p c = true := fun _ hc => List.mem_rtakeWhile_imp hc

/-- The head of a non-empty stripped string does not satisfy the strip
predicate. -/
theorem pyStrip_head_not (p : Char → Bool) (s : Str) (c : Char) (cs : Str)
    (h : pyStrip p s = c :: cs) : p c = false := by
  have hpre : pyStrip p s <+: s.dropWhile p := List.rdropWhile_prefix p _
  rw [h] at hpre
  obtain ⟨t, ht⟩ := hpre
  have hne : s.dropWhile p ≠ [] := by
    rw [← ht]
    simp
  have hh : (s.dropWhile p).head? = some c := by
    rw [← ht]
    simp
  have h2 := List.head?_eq_head (l := s.dropWhile p) hne
  rw [hh] at h2
  have h3 : c = (s.dropWhile p).head hne := Option.some.inj h2
  have h4 := List.head_dropWhile_not p s hne
  rw [← h3] at h4
  exact h4

theorem dropWhile_ws_append (p : Char → Bool) (w x : Str)
    (hw : ∀ c ∈ w, p c = true) :
    List.dropWhile p (w ++ x) = List.dropWhile p x := by
  induction w with
  | nil => simp
  | cons d t ih =>
    rw [List.cons_append, List.dropWhile_cons_of_pos (hw d (List.mem_cons_self d t))]
    exact ih (fun c hc => hw c (List.mem_cons_of_mem d hc))

theorem rdropWhile_append_all (p : Char → Bool) (x w : Str)
    (hw : ∀ c ∈ w, p c = true) :
    List.rdropWhile p (x ++ w) = List.rdropWhile p x := by
  rw [List.rdropWhile, List.rdropWhile, List.reverse_append]
  rw [dropWhile_ws_append p w.reverse x.reverse
    (fun c hc => hw c (List.mem_reverse.mp hc))]

/-- Stripping is invariant under padding with stripped characters on both
sides. -/
theorem pyStrip_pad (p : Char → Bool) (w1 m w2 : Str)
    (h1 : ∀ c ∈ w1, p c = true) (h2 : ∀ c ∈ w2, p c = true) :
    pyStrip p (w1 ++ m ++ w2) = pyStrip p m := by
  unfold pyStrip
  rw [List.append_assoc, dropWhile_ws_append p w1 (m ++ w2) h1]
  rw [List.dropWhile_append]
  by_cases hm : (List.dropWhile p m).isEmpty = true
  · rw [if_pos hm]
    have hw2 : List.dropWhile p w2 = [] := List.dropWhile_eq_nil_iff.mpr h2
    have hmnil : List.dropWhile p m = [] := by
      simpa [List.isEmpty_iff] using hm
    rw [hw2, hmnil]
  · rw [if_neg hm]
    exact rdropWhile_append_all p _ w2 h2

theorem indexOf_append_not_mem {c : Char} {l1 l2 : Str} (h : c ∉ l1) :
    (l1 ++ c :: l2).indexOf c = l1.length := by
  induction l1 with
  | nil => simp [List.indexOf_cons]
  | cons d t ih =>
    have hdc : (d == c) = false := by
      simp only [beq_eq_false_iff_ne, ne_eq]
      exact fun he => h (he ▸ List.mem_cons_self d t)
    rw [List.cons_append, List.indexOf_cons, hdc]
    simp only [cond_false, List.length_cons]
    rw [ih (fun hm => h (List.mem_cons_of_mem d hm))]

/-- The strict length decrease used by the whitespace branch of
`_format`. -/
theorem pyStrip_length_lt (s : Str) (hws : wsAtBoundary s = true)
    (hne : pyStrip isWs s ≠ []) : (pyStrip isWs s).length < s.length := by
  rw [wsAtBoundary, Bool.or_eq_true] at hws
  have h1 : (pyStrip isWs s).length ≤ (List.dropWhile isWs s).length := by
    simpa [pyStrip] using
      (List.rdropWhile_prefix isWs (List.dropWhile isWs s)).length_le
  rcases hws with hw | hw
  · obtain ⟨x, hx, hxw⟩ : ∃ x, s.getLast? = some x ∧ isWs x = true := by
      cases hgl : s.getLast? with
      | none => rw [hgl] at hw; simp at hw
      | some y => rw [hgl] at hw; exact ⟨y, rfl, hw⟩
    have hd : List.dropWhile isWs s ≠ [] := by
      intro h0
      exact hne (by simp [pyStrip, h0])
    obtain ⟨pre, hpre⟩ := List.dropWhile_suffix (l := s) isWs
    have hdl : (List.dropWhile isWs s).getLast? = some x := by
      rw [← hx]
      conv_rhs => rw [← hpre]
      exact (List.getLast?_append_of_ne_nil pre hd).symm
    have hrev : (List.dropWhile isWs s).reverse.head? = some x := by
      rw [List.head?_reverse]; exact hdl
    obtain ⟨t', ht'⟩ : ∃ t', (List.dropWhile isWs s).reverse = x :: t' := by
      cases hrd : (List.dropWhile isWs s).reverse with
      | nil => rw [hrd] at hrev; simp at hrev
      | cons y ys =>
        rw [hrd] at hrev
        simp only [List.head?_cons, Option.some.injEq] at hrev
        exact ⟨ys, by rw [hrev]⟩
    have h2 : (pyStrip isWs s).length ≤ t'.length := by
      have heq : pyStrip isWs s =
          (List.dropWhile isWs (x :: t')).reverse := by
        rw [pyStrip, List.rdropWhile, ht']
      rw [heq, List.length_reverse, List.dropWhile_cons_of_pos hxw]
      exact (List.dropWhile_sublist _).length_le
    have h3 : t'.length + 1 = (List.dropWhile isWs s).length := by
      have := congrArg List.length ht'
      simpa [Nat.add_comm] using this.symm
    have h4 : (List.dropWhile isWs s).length ≤ s.length :=
      (List.dropWhile_sublist _).length_le
    omega
  · cases s with
    | nil => simp at hw
    | cons a t =>
      simp only [List.head?_cons] at hw
      have h2 : List.dropWhile isWs (a :: t) = List.dropWhile isWs t :=
        List.dropWhile_cons_of_pos hw
      have h3 : (List.dropWhile isWs t).length ≤ t.length :=
        (List.dropWhile_sublist _).length_le
      rw [h2] at h1
      simp only [List.length_cons]
      omega

-- ---------------------------------------------------------------------
-- Branch-level unfolding lemmas for `_format`.
-- ---------------------------------------------------------------------

theorem format_eq_early (s : Str) (attr : Style)
    (h : (decide (attr = {}) || decide (pyStrip isWs s = [])) = true) :
    _format s attr = (s, attr) := by
  rw [_format.eq_def, if_pos h]

theorem format_eq_ws (s : Str) (attr : Style) (c : Char) (cs : Str)
    (h1 : (decide (attr = {}) || decide (pyStrip isWs s = [])) = false)
    (h2 : wsAtBoundary s = true)
    (hstrip : pyStrip isWs s = c :: cs) :
    _format s attr =
      (s.take (s.indexOf c) ++ (_format (c :: cs) attr).1 ++
        s.drop (s.indexOf c + (c :: cs).length), (_format (c :: cs) attr).2) := by
  rw [_format.eq_def, if_neg (by simp [h1]), if_pos h2]
  split
  · next heq => rw [hstrip] at heq; cases heq
  · next c' cs' heq =>
    rw [hstrip] at heq
    injection heq with hc hcs
    subst hc
    subst hcs
    rfl

theorem format_eq_codeblock (s : Str) (attr : Style)
    (h1 : (decide (attr = {}) || decide (pyStrip isWs s = [])) = false)
    (h2 : wsAtBoundary s = false) (h3 : attr.codeblock = true) :
    _format s attr =
      (['\n', '\n'] ++ fenceStr ++ attr.lang.getD (lit ("bash")) ++ ['\n'] ++
        _clean_code_block s ++ ['\n'] ++ fenceStr ++ ['\n', '\n'], attr) := by
  rw [_format.eq_def, if_neg (by simp [h1]), if_neg (by simp [h2]), if_pos h3]

/-- `_apply_style` leaves the dictionary unchanged unless a truthy link is
combined with italics and no underline. -/
theorem apply_style_preserves (s : Str) (attr : Style)
    (h : (optStrTruthy attr.link && attr.italic && !attr.underline) = false) :
    (_apply_style s attr).2 = attr := by
  unfold _apply_style
  simp only [h, Bool.false_eq_true, if_false]

/-- In the non-whitespace, non-codeblock branch, `_format` leaves a
dictionary without default-black color and without the link–italics
combination unchanged. -/
theorem format_eq_main_snd (s : Str) (attr : Style)
    (h1 : (decide (attr = {}) || decide (pyStrip isWs s = [])) = false)
    (h2 : wsAtBoundary s = false) (h3 : attr.codeblock = false)
    (hcol : colorIsBlack attr = false)
    (hlia : (optStrTruthy attr.link && attr.italic && !attr.underline) = false) :
    (_format s attr).2 = attr := by
  rw [_format.eq_def, if_neg (by simp [h1]), if_neg (by simp [h2]),
    if_neg (by simp [h3])]
  simp only [hcol, Bool.false_eq_true, if_false]
  split
  · rfl
  · next s2 heq =>
    split
    · exact apply_style_preserves ((splitFirstSpace s2).2) attr hlia
    · exact apply_style_preserves s2 attr hlia

/-- C5 (amended): `_format` returns without modifying the style mapping
provided the mapping's color is not a default black and it does not
combine a truthy link with italics while lacking underline. -/
theorem c5_format_preserves_style (s : Str) (attr : Style)
    (hcol : colorIsBlack attr = false)
    (hlia : (optStrTruthy attr.link && attr.italic && !attr.underline) = false) :
    (_format s attr).2 = attr := by
  have main : ∀ n (s : Str), s.length ≤ n → (_format s attr).2 = attr := by
    intro n
    induction n with
    | zero =>
      intro s hs
      have hnil : s = [] := List.length_eq_zero.mp (Nat.le_zero.mp hs)
      subst hnil
      rw [format_eq_early _ _ (by simp [pyStrip, List.rdropWhile])]
    | succ n ih =>
      intro s hs
      by_cases hearly : (decide (attr = {}) || decide (pyStrip isWs s = [])) = true
      · rw [format_eq_early s attr hearly]
      · have hearly' : (decide (attr = {}) || decide (pyStrip isWs s = [])) = false :=
          Bool.eq_false_iff.mpr hearly
        by_cases hws : wsAtBoundary s = true
        · obtain ⟨c, cs, hstrip⟩ : ∃ c cs, pyStrip isWs s = c :: cs := by
            cases hp : pyStrip isWs s with
            | nil => rw [hp] at hearly; simp at hearly
            | cons c cs => exact ⟨c, cs, rfl⟩
          rw [format_eq_ws s attr c cs hearly' hws hstrip]
          apply ih
          have hlt : (pyStrip isWs s).length < s.length :=
            pyStrip_length_lt s hws (by rw [hstrip]; simp)
          rw [hstrip] at hlt
          omega
        · have hws' : wsAtBoundary s = false := Bool.eq_false_iff.mpr hws
          by_cases hcb : attr.codeblock = true
          · rw [format_eq_codeblock s attr hearly' hws' hcb]
          · exact format_eq_main_snd s attr hearly' hws'
              (Bool.eq_false_iff.mpr hcb) hcol hlia
  exact main s.length s le_rfl

/-- Witness for C5 (amended) at `"x"` with a bold style. -/
theorem c5_format_preserves_style_witness :
    colorIsBlack { bold := true } = false ∧
    (optStrTruthy (Style.link { bold := true }) && Style.italic { bold := true } &&
      !Style.underline { bold := true }) = false ∧
    (_format ['x'] { bold := true }).2 = { bold := true } :=
  ⟨by decide, by decide,
    c5_format_preserves_style ['x'] { bold := true } (by decide) (by decide)⟩

/-- Counterexample to C5 as stated: a default-black color is popped from
the dictionary, so after the call the mapping differs from the one passed
in. -/
theorem c5_format_mutates_counterexample :
    (_format ['x'] { color := some (lit ("black")) }).2 ≠
      ({ color := some (lit ("black")) } : Style) := by
  have hval : (_format ['x'] { color := some (lit ("black")) }).2 =
      ({} : Style) := by
    rw [_format.eq_def, if_neg (by decide), if_neg (by decide),
      if_neg (by decide)]
    decide
  rw [hval]
  decide

-- ---------------------------------------------------------------------
-- C1: whitespace safety of `_format`.
-- ---------------------------------------------------------------------

theorem pyStrip_idem (p : Char → Bool) (s : Str) :
    pyStrip p (pyStrip p s) = pyStrip p s := by
  conv_rhs => rw [show pyStrip p s =
    pyStrip p (wsLead p s ++ pyStrip p s ++ wsTrail p s) from by
      rw [← strip_decomp]]
  rw [pyStrip_pad p _ _ _ (wsLead_all p s) (wsTrail_all p s)]

theorem dropWhile_eq_nil_of_pyStrip_eq_nil (p : Char → Bool) (s : Str)
    (h : pyStrip p s = []) : List.dropWhile p s = [] := by
  cases hd : List.dropWhile p s with
  | nil => rfl
  | cons d t =>
    have hall : ∀ c ∈ List.dropWhile p s, p c = true := by
      rw [pyStrip] at h
      exact List.rdropWhile_eq_nil_iff.mp h
    have hdp : p d = true := hall d (by rw [hd]; exact List.mem_cons_self d t)
    have hne : List.dropWhile p s ≠ [] := by rw [hd]; simp
    have h2 := List.head?_eq_head (l := List.dropWhile p s) hne
    have hh : (List.dropWhile p s).head? = some d := by rw [hd]; rfl
    rw [hh] at h2
    have h3 : d = (List.dropWhile p s).head hne := Option.some.inj h2
    have h4 := List.head_dropWhile_not p s hne
    rw [← h3, hdp] at h4
    cases h4

/-- C1 (amended): for a string beginning or ending in whitespace,
`_format` returns the original leading whitespace, then the formatted
trimmed core, then the original trailing whitespace; and stripping the
output agrees with stripping the formatted trimmed core (the formatted
core itself can carry boundary whitespace — e.g. for codeblock styles —
so only the stripped forms coincide in general). -/
theorem c1_format_whitespace_safety (s : Str) (attr : Style)
    (hws : wsAtBoundary s = true) :
    (_format s attr).1 =
      wsLead isWs s ++ (_format (pyStrip isWs s) attr).1 ++ wsTrail isWs s ∧
    pyStrip isWs (_format s attr).1 =
      pyStrip isWs (_format (pyStrip isWs s) attr).1 := by
  by_cases hearly : (decide (attr = {}) || decide (pyStrip isWs s = [])) = true
  · rw [format_eq_early s attr hearly]
    rcases Bool.or_eq_true_iff.mp hearly with hattr | hstrip
    · -- the style is empty: both sides are the unformatted strings
      have hattr' : attr = {} := of_decide_eq_true hattr
      subst hattr'
      rw [format_eq_early (pyStrip isWs s) {} (by simp)]
      exact ⟨strip_decomp isWs s, (pyStrip_idem isWs s).symm⟩
    · -- the string is all whitespace: the core is empty
      have hstrip' : pyStrip isWs s = [] := of_decide_eq_true hstrip
      have hdw : List.dropWhile isWs s = [] :=
        dropWhile_eq_nil_of_pyStrip_eq_nil isWs s hstrip'
      have hlead : wsLead isWs s = s := by
        rw [wsLead, List.takeWhile_eq_self_iff]
        exact List.dropWhile_eq_nil_iff.mp hdw
      have htrail : wsTrail isWs s = [] := by
        rw [wsTrail, hdw, List.rtakeWhile_nil]
      rw [hstrip', format_eq_early [] attr (by simp [pyStrip, List.rdropWhile])]
      constructor
      · rw [hlead, htrail]
        simp
      · simp [pyStrip, List.rdropWhile, hstrip', hdw]
  · have hearly' : (decide (attr = {}) || decide (pyStrip isWs s = [])) = false :=
      Bool.eq_false_iff.mpr hearly
    obtain ⟨c, cs, hstrip⟩ : ∃ c cs, pyStrip isWs s = c :: cs := by
      cases hp : pyStrip isWs s with
      | nil => rw [hp] at hearly; simp at hearly
      | cons c cs => exact ⟨c, cs, rfl⟩
    rw [format_eq_ws s attr c cs hearly' hws hstrip]
    set L := wsLead isWs s with hL
    set T := wsTrail isWs s with hT
    have hla : ∀ x ∈ L, isWs x = true := by rw [hL]; exact wsLead_all isWs s
    have hta : ∀ x ∈ T, isWs x = true := by rw [hT]; exact wsTrail_all isWs s
    have hdecomp : s = L ++ (c :: cs) ++ T := by
      conv_lhs => rw [strip_decomp isWs s]
      rw [hstrip, ← hL, ← hT]
    have hcw : isWs c = false := pyStrip_head_not isWs s c cs hstrip
    have hcnl : c ∉ L := fun hm => by
      have := hla c hm
      rw [hcw] at this
      cases this
    have hoff : s.indexOf c = L.length := by
      conv_lhs => rw [hdecomp]
      rw [List.append_assoc, List.cons_append]
      exact indexOf_append_not_mem hcnl
    have htake : s.take (s.indexOf c) = L := by
      rw [hoff]
      conv_lhs => rw [hdecomp]
      rw [List.append_assoc]
      exact List.take_left _ _
    have hdrop : s.drop (s.indexOf c + (c :: cs).length) = T := by
      rw [hoff]
      conv_lhs => rw [hdecomp]
      rw [← List.length_append]
      exact List.drop_left _ _
    rw [htake, hdrop, hstrip]
    refine ⟨rfl, ?_⟩
    exact pyStrip_pad isWs _ _ _ hla hta

/-- Witness for C1 (amended) at `" x"` with an italic style. -/
theorem c1_format_whitespace_safety_witness :
    wsAtBoundary [' ', 'x'] = true ∧
    ((_format [' ', 'x'] { italic := true }).1 =
      wsLead isWs [' ', 'x'] ++
        (_format (pyStrip isWs [' ', 'x']) { italic := true }).1 ++
        wsTrail isWs [' ', 'x'] ∧
    pyStrip isWs (_format [' ', 'x'] { italic := true }).1 =
      pyStrip isWs (_format (pyStrip isWs [' ', 'x']) { italic := true }).1) :=
  ⟨by decide, c1_format_whitespace_safety [' ', 'x'] { italic := true } (by decide)⟩

/-- Evaluation fact: cleaning the one-character code `"x"` is the
identity. -/
theorem clean_code_block_x : _clean_code_block ['x'] = ['x'] := by
  simp [_clean_code_block, lit, replaceStr, subEscapedNum, pyStrip, _unescape,
    escapeDict, escapeChars, btChar, nbspChar, List.rdropWhile,
    List.dropWhile, isWs]

/-- Counterexample to C1 as stated: for a codeblock style the formatted
trimmed core starts and ends with newlines, so stripping the output does
not return it. -/
theorem c1_strip_not_core_counterexample :
    pyStrip isWs (_format [' ', 'x'] { codeblock := true }).1 ≠
      (_format (pyStrip isWs [' ', 'x']) { codeblock := true }).1 := by
  have hcore : _format (['x'] : Str) ({ codeblock := true } : Style) =
      (['\n', '\n'] ++ fenceStr ++ lit ("bash") ++ ['\n'] ++ ['x'] ++ ['\n'] ++
        fenceStr ++ ['\n', '\n'], { codeblock := true }) := by
    rw [format_eq_codeblock ['x'] { codeblock := true } (by decide) (by decide)
      rfl, clean_code_block_x]
    rfl
  have houter : (_format [' ', 'x'] ({ codeblock := true } : Style)).1 =
      [' '].append ((_format (['x'] : Str) ({ codeblock := true } : Style)).1 ++ []) := by
    rw [format_eq_ws [' ', 'x'] { codeblock := true } 'x' [] (by decide)
      (by decide) (by decide)]
    rfl
  have hstrip2 : pyStrip isWs [' ', 'x'] = ['x'] := by decide
  rw [hstrip2, houter, hcore]
  decide

-- ---------------------------------------------------------------------
-- C3: span-merge equivalence for a shared style.
-- ---------------------------------------------------------------------

/-- C3: for every non-empty list of spans whose styles are all equal,
`_format_spans` returns the result of formatting the concatenated texts
once with the shared style. -/
theorem c3_format_spans_shared_style (spans : List (Str × Style)) (st : Style)
    (hne : spans ≠ []) (hall : ∀ sp ∈ spans, sp.2 = st) :
    _format_spans spans =
      some (_format ((spans.map Prod.fst).flatten) st).1 := by
  cases spans with
  | nil => exact absurd rfl hne
  | cons sp rest =>
    have hsp : sp.2 = st := hall sp (List.mem_cons_self _ _)
    cases rest with
    | nil =>
      have h0 : _format_spans [sp] = some (_format sp.1 sp.2).1 := rfl
      rw [h0, hsp]
      simp
    | cons sp2 rest2 =>
      have hallmap :
          ((sp :: sp2 :: rest2).map Prod.snd).all (fun x => x = sp.2) = true := by
        rw [List.all_eq_true]
        intro x hx
        rcases List.mem_map.mp hx with ⟨y, hy, rfl⟩
        simp [hall y hy, hsp]
      rw [_format_spans.eq_def]
      dsimp only
      rw [if_neg (by simp), if_pos (by simp only [hallmap]), hsp]

/-- Witness for C3 at two bold spans. -/
theorem c3_format_spans_shared_style_witness :
    ([(['a'], ({ bold := true } : Style)), (['b'], { bold := true })] ≠
      ([] : List (Str × Style))) ∧
    (∀ sp ∈ [(['a'], ({ bold := true } : Style)), (['b'], { bold := true })],
      sp.2 = ({ bold := true } : Style)) ∧
    _format_spans [(['a'], ({ bold := true } : Style)), (['b'], { bold := true })] =
      some (_format (([(['a'], ({ bold := true } : Style)),
        (['b'], { bold := true })].map Prod.fst).flatten) { bold := true }).1 :=
  ⟨by decide, by decide,
    c3_format_spans_shared_style _ { bold := true } (by decide) (by decide)⟩

-- ---------------------------------------------------------------------
-- C8: autolink branch of `_parse_link`.
-- ---------------------------------------------------------------------

/-- C8 (amended): when the anchor target equals the visible text (and is
neither empty nor the `https:` placeholder), `_parse_link` returns before
decoding any style: the text, the style dictionary and the parser state
are all returned exactly as passed in — in particular no link attribute is
added, but the style is empty only if the accumulated style already
was. -/
theorem c8_autolink_returns_unchanged (tag : ATag) (txt : Str) (style : Style)
    (st : PState) (h : tag.href = some txt) (hne : txt ≠ [])
    (hns : txt ≠ lit ("https:")) :
    _parse_link tag txt style st = .ok (txt, style, st) := by
  unfold _parse_link
  rw [h]
  simp only [Option.getD_some]
  rw [if_neg (by simp [List.isEmpty_iff, hne]), if_neg hns]
  simp

/-- Witness for C8 (amended) at a one-character autolink. -/
theorem c8_autolink_returns_unchanged_witness :
    (ATag.href { href := some ['X'] } = some ['X']) ∧ (['X'] : Str) ≠ [] ∧
      (['X'] : Str) ≠ lit ("https:") ∧
    _parse_link { href := some ['X'] } ['X'] {} {} = .ok (['X'], {}, {}) :=
  ⟨rfl, by decide, by decide,
    c8_autolink_returns_unchanged { href := some ['X'] } ['X'] {} {} rfl
      (by decide) (by decide)⟩

/-- Counterexample to C8 as stated: the autolink branch returns the
accumulated style unchanged, so when that style is non-empty the returned
style does contain attributes. -/
theorem c8_autolink_styled_counterexample :
    _parse_link { href := some ['X'] } ['X'] { bold := true } {} =
      .ok (['X'], { bold := true }, {}) ∧
    ({ bold := true } : Style) ≠ {} :=
  ⟨c8_autolink_returns_unchanged { href := some ['X'] } ['X'] { bold := true }
    {} rfl (by decide) (by decide), by decide⟩

-- ---------------------------------------------------------------------
-- C9: the fatal missing-body check of `HTMLParser.parse`.
-- ---------------------------------------------------------------------

/-- C9: `parse` raises `ValueError("No content found")` — producing no
converted text — exactly when the root element has no `body` child; with a
`body` child present (whatever the tree walker `f` computes) this error is
not raised. -/
theorem c9_parse_body_error_iff (children : List Node)
    (f : Node → Str × Style) (cr : Str) :
    HTMLParser.parse children f cr = .error (lit ("No content found")) ↔
      findBody children = none := by
  unfold HTMLParser.parse
  cases hfb : findBody children with
  | none => simp
  | some b => simp

-- ---------------------------------------------------------------------
-- C4: external images under the wiki image dialect.
-- ---------------------------------------------------------------------

/-- C4 (code bug): for an `img` whose source contains a scheme separator,
`_parse_img` computes the degraded local `mode = 'markdown'` — but the
emission branches test the global `IMAGE_MODE` (= `'wiki'`), so the
double-bracket embed form is still produced instead of the generic
bracket-and-parenthesis form the spec (and the dead `mode` assignment)
call for.  The source is also not recorded as a resource, as specified. -/
theorem c4_external_image_wiki_mode_bug :
    containsSub (lit ("http://x/a.png")) (lit ("://")) = true ∧
    _parse_img { src := some (lit ("http://x/a.png")) } [] =
      .ok (lit ("![[http://x/a.png|a]]"), []) ∧
    lit ("![[http://x/a.png|a]]") ≠
      lit ("![") ++ lit ("a") ++ lit ("](") ++ lit ("http://x/a.png") ++ [')'] := by
  refine ⟨by decide, ?_, by decide⟩
  have h1 : _parse_img { src := some (lit ("http://x/a.png")) } [] =
      .ok (lit ("![[") ++ unquoteUtf8 (lit ("http://x/a.png")) ++ ['|'] ++
        lit ("a") ++ ([] : Str) ++ lit ("]]"), []) := rfl
  have huq : unquoteUtf8 (lit ("http://x/a.png")) = lit ("http://x/a.png") := by
    simp [unquoteUtf8, unquoteUtf8Go, hexVal, utf8DecodeRepl, lit]
  rw [h1, huq]
  have h2 : (lit ("![[") ++ lit ("http://x/a.png") ++ ['|'] ++ lit ("a") ++
      ([] : Str) ++ lit ("]]"), ([] : List Str)) =
      (lit ("![[http://x/a.png|a]]"), ([] : List Str)) := by decide
  rw [h2]

-- ---------------------------------------------------------------------
-- C2: table grid rectangularity and the emitted pipe table.
-- ---------------------------------------------------------------------

theorem setCell_length (g : Grid) (i c : Nat) (v : Option Str) :
    (setCell g i c v).length = g.length := by simp [setCell]

theorem setCell_rows (g : Grid) (i c : Nat) (v : Option Str) (n : Nat)
    (h : ∀ row ∈ g, row.length = n) :
    ∀ row ∈ setCell g i c v, row.length = n := by
  by_cases hi : i < g.length
  · intro row hrow
    rcases List.mem_or_eq_of_mem_set hrow with hmem | heq
    · exact h row hmem
    · subst heq
      rw [List.length_set, List.getD_eq_getElem g [] hi]
      exact h _ (List.getElem_mem hi)
  · have : setCell g i c v = g := by
      unfold setCell
      exact List.set_eq_of_length_le (by omega)
    rw [this]
    exact h

theorem fillCols_shape (m : Nat) (g : Grid) (i col j n : Nat) :
    ∀ g', fillCols g i col j n = some g' →
      (∀ row ∈ g, row.length = m) →
      g'.length = g.length ∧ ∀ row ∈ g', row.length = m := by
  induction g, i, col, j, n using fillCols.induct with
  | case1 g i col j n hj hb ih =>
    intro g' h hok
    rw [fillCols.eq_def, dif_pos hj, if_pos hb] at h
    obtain ⟨hl, hr⟩ := ih g' h (setCell_rows g i (col + j) (some []) m hok)
    exact ⟨hl.trans (setCell_length _ _ _ _), hr⟩
  | case2 g i col j n hj hb =>
    intro g' h hok
    rw [fillCols.eq_def, dif_pos hj, if_neg hb] at h
    cases h
  | case3 g i col j n hj =>
    intro g' h hok
    rw [fillCols.eq_def, dif_neg hj] at h
    cases h
    exact ⟨rfl, hok⟩

theorem fillRows_shape (m : Nat) (g : Grid) (i col j n : Nat) :
    ∀ g', fillRows g i col j n = some g' →
      (∀ row ∈ g, row.length = m) →
      g'.length = g.length ∧ ∀ row ∈ g', row.length = m := by
  induction g, i, col, j, n using fillRows.induct with
  | case1 g i col j n hj hb ih =>
    intro g' h hok
    rw [fillRows.eq_def, dif_pos hj, if_pos hb] at h
    obtain ⟨hl, hr⟩ := ih g' h (setCell_rows g (i + j) col (some ['^']) m hok)
    exact ⟨hl.trans (setCell_length _ _ _ _), hr⟩
  | case2 g i col j n hj hb =>
    intro g' h hok
    rw [fillRows.eq_def, dif_pos hj, if_neg hb] at h
    cases h
  | case3 g i col j n hj =>
    intro g' h hok
    rw [fillRows.eq_def, dif_neg hj] at h
    cases h
    exact ⟨rfl, hok⟩

theorem placeRow_shape (m : Nat) (i : Nat) (cells : List TCell) :
    ∀ g col g', placeRow g i cells col = some g' →
      (∀ row ∈ g, row.length = m) →
      g'.length = g.length ∧ ∀ row ∈ g', row.length = m := by
  induction cells with
  | nil =>
    intro g col g' h hok
    rw [placeRow] at h
    cases h
    exact ⟨rfl, hok⟩
  | cons cell rest ih =>
    intro g col g' h hok
    rw [placeRow] at h
    cases hgi : g[i]? with
    | none => rw [hgi] at h; simp at h
    | some grow =>
      rw [hgi] at h
      dsimp only at h
      cases hff : findFree grow col with
      | none => rw [hff] at h; simp at h
      | some c =>
        rw [hff] at h
        dsimp only at h
        have hok1 : ∀ row ∈ setCell g i c (some (cellContent cell.txt)),
            row.length = m := setCell_rows _ _ _ _ m hok
        cases hcs : cell.colspan with
        | none =>
          rw [hcs] at h
          dsimp only at h
          cases hrs : cell.rowspan with
          | none =>
            rw [hrs] at h
            dsimp only at h
            obtain ⟨hl, hr⟩ := ih _ c g' h hok1
            exact ⟨hl.trans (setCell_length _ _ _ _), hr⟩
          | some nr =>
            rw [hrs] at h
            dsimp only at h
            cases hfr : fillRows (setCell g i c (some (cellContent cell.txt)))
                i c 1 nr with
            | none => rw [hfr] at h; simp at h
            | some g3 =>
              rw [hfr] at h
              dsimp only at h
              obtain ⟨hl3, hr3⟩ := fillRows_shape m _ i c 1 nr g3 hfr hok1
              obtain ⟨hl, hr⟩ := ih g3 c g' h hr3
              exact ⟨hl.trans (hl3.trans (setCell_length _ _ _ _)), hr⟩
        | some nc =>
          rw [hcs] at h
          dsimp only at h
          cases hfc : fillCols (setCell g i c (some (cellContent cell.txt)))
              i c 1 nc with
          | none => rw [hfc] at h; simp at h
          | some g2 =>
            rw [hfc] at h
            dsimp only at h
            obtain ⟨hl2, hr2⟩ := fillCols_shape m _ i c 1 nc g2 hfc hok1
            cases hrs : cell.rowspan with
            | none =>
              rw [hrs] at h
              dsimp only at h
              obtain ⟨hl, hr⟩ := ih g2 c g' h hr2
              exact ⟨hl.trans (hl2.trans (setCell_length _ _ _ _)), hr⟩
            | some nr =>
              rw [hrs] at h
              dsimp only at h
              cases hfr : fillRows g2 i c 1 nr with
              | none => rw [hfr] at h; simp at h
              | some g3 =>
                rw [hfr] at h
                dsimp only at h
                obtain ⟨hl3, hr3⟩ := fillRows_shape m g2 i c 1 nr g3 hfr hr2
                obtain ⟨hl, hr⟩ := ih g3 c g' h hr3
                exact ⟨hl.trans (hl3.trans (hl2.trans
                  (setCell_length _ _ _ _))), hr⟩

theorem buildGridGo_shape (m : Nat) (rows : List (List TCell)) :
    ∀ g i g', buildGridGo g i rows = some g' →
      (∀ row ∈ g, row.length = m) →
      g'.length = g.length ∧ ∀ row ∈ g', row.length = m := by
  induction rows with
  | nil =>
    intro g i g' h hok
    rw [buildGridGo] at h
    cases h
    exact ⟨rfl, hok⟩
  | cons r rest ih =>
    intro g i g' h hok
    rw [buildGridGo] at h
    cases hp : placeRow g i r 0 with
    | none => rw [hp] at h; cases h
    | some g1 =>
      rw [hp] at h
      obtain ⟨hl1, hr1⟩ := placeRow_shape m i r g 0 g1 hp hok
      obtain ⟨hl2, hr2⟩ := ih g1 (i + 1) g' h hr1
      exact ⟨hl2.trans hl1, hr2⟩

theorem mem_replaceStr {c : Char} (s pat rep : Str)
    (h : c ∈ replaceStr s pat rep) : c ∈ s ∨ c ∈ rep := by
  induction s, pat, rep using replaceStr.induct with
  | case1 pat rep => rw [replaceStr] at h; cases h
  | case2 pat rep c' rest hp ih =>
    rw [replaceStr, dif_pos hp] at h
    rcases List.mem_append.mp h with hm | hm
    · exact Or.inr hm
    · rcases ih hm with hm2 | hm2
      · exact Or.inl (List.mem_of_mem_drop hm2)
      · exact Or.inr hm2
  | case3 pat rep c' rest hp ih =>
    rw [replaceStr, dif_neg hp] at h
    rcases List.mem_cons.mp h with hm | hm
    · exact Or.inl (hm ▸ List.mem_cons_self c' rest)
    · rcases ih hm with hm2 | hm2
      · exact Or.inl (List.mem_cons_of_mem c' hm2)
      · exact Or.inr hm2

theorem mem_pyStrip {c : Char} (p : Char → Bool) (s : Str)
    (h : c ∈ pyStrip p s) : c ∈ s := by
  unfold pyStrip at h
  have h1 : c ∈ s.dropWhile p :=
    (List.rdropWhile_prefix p _).subset h
  exact (List.dropWhile_suffix p).subset h1

/-- `cellContent` introduces no pipe character when the cell text has
none. -/
theorem cellContent_no_pipe (t : Str) (h : '|' ∉ t) : '|' ∉ cellContent t := by
  have h0 : '|' ∉ pyStrip isWs t := fun hm => h (mem_pyStrip isWs t hm)
  have h1 : '|' ∉ replaceStr (pyStrip isWs t) ['\n'] (lit ("<br>")) := by
    intro hm
    rcases mem_replaceStr _ _ _ hm with hm2 | hm2
    · exact h0 hm2
    · simp [lit] at hm2
  have hrw : cellContent t =
      if List.isEmpty (replaceStr (replaceStr (pyStrip isWs t) ['\n']
          (lit ("<br>"))) ['|'] (lit ("\\|"))) = true then lit ("&nbsp;")
      else replaceStr (replaceStr (pyStrip isWs t) ['\n'] (lit ("<br>")))
        ['|'] (lit ("\\|")) := rfl
  rw [hrw, replaceStr_id_of_head_not_mem '|' [] _ _ h1]
  intro hm
  split at hm
  · simp [lit] at hm
  · exact h1 hm

theorem setCell_entries (Q : Option Str → Prop) (g : Grid) (i c : Nat)
    (v : Option Str) (hv : Q v) (h : ∀ row ∈ g, ∀ x ∈ row, Q x) :
    ∀ row ∈ setCell g i c v, ∀ x ∈ row, Q x := by
  by_cases hi : i < g.length
  · intro row hrow
    rcases List.mem_or_eq_of_mem_set hrow with hmem | heq
    · exact h row hmem
    · subst heq
      intro x hx
      rcases List.mem_or_eq_of_mem_set hx with hxm | hxe
      · refine h _ ?_ x hxm
        rw [List.getD_eq_getElem g [] hi]
        exact List.getElem_mem hi
      · exact hxe ▸ hv
  · have hset : setCell g i c v = g := by
      unfold setCell
      exact List.set_eq_of_length_le (by omega)
    rw [hset]
    exact h

theorem fillCols_entries (Q : Option Str → Prop) (hnil : Q (some []))
    (g : Grid) (i col j n : Nat) :
    ∀ g', fillCols g i col j n = some g' →
      (∀ row ∈ g, ∀ x ∈ row, Q x) →
      ∀ row ∈ g', ∀ x ∈ row, Q x := by
  induction g, i, col, j, n using fillCols.induct with
  | case1 g i col j n hj hb ih =>
    intro g' h hok
    rw [fillCols.eq_def, dif_pos hj, if_pos hb] at h
    exact ih g' h (setCell_entries Q g i (col + j) (some []) hnil hok)
  | case2 g i col j n hj hb =>
    intro g' h hok
    rw [fillCols.eq_def, dif_pos hj, if_neg hb] at h
    cases h
  | case3 g i col j n hj =>
    intro g' h hok
    rw [fillCols.eq_def, dif_neg hj] at h
    cases h
    exact hok

theorem fillRows_entries (Q : Option Str → Prop) (hcaret : Q (some ['^']))
    (g : Grid) (i col j n : Nat) :
    ∀ g', fillRows g i col j n = some g' →
      (∀ row ∈ g, ∀ x ∈ row, Q x) →
      ∀ row ∈ g', ∀ x ∈ row, Q x := by
  induction g, i, col, j, n using fillRows.induct with
  | case1 g i col j n hj hb ih =>
    intro g' h hok
    rw [fillRows.eq_def, dif_pos hj, if_pos hb] at h
    exact ih g' h (setCell_entries Q g (i + j) col (some ['^']) hcaret hok)
  | case2 g i col j n hj hb =>
    intro g' h hok
    rw [fillRows.eq_def, dif_pos hj, if_neg hb] at h
    cases h
  | case3 g i col j n hj =>
    intro g' h hok
    rw [fillRows.eq_def, dif_neg hj] at h
    cases h
    exact hok

theorem placeRow_entries (Q : Option Str → Prop) (hnil : Q (some []))
    (hcaret : Q (some ['^'])) (i : Nat) (cells : List TCell)
    (hcells : ∀ cl ∈ cells, Q (some (cellContent cl.txt))) :
    ∀ g col g', placeRow g i cells col = some g' →
      (∀ row ∈ g, ∀ x ∈ row, Q x) →
      ∀ row ∈ g', ∀ x ∈ row, Q x := by
  induction cells with
  | nil =>
    intro g col g' h hok
    rw [placeRow] at h
    cases h
    exact hok
  | cons cell rest ih =>
    have hcell : Q (some (cellContent cell.txt)) :=
      hcells cell (List.mem_cons_self _ _)
    have hrest : ∀ cl ∈ rest, Q (some (cellContent cl.txt)) :=
      fun cl hcl => hcells cl (List.mem_cons_of_mem _ hcl)
    intro g col g' h hok
    rw [placeRow] at h
    cases hgi : g[i]? with
    | none => rw [hgi] at h; simp at h
    | some grow =>
      rw [hgi] at h
      dsimp only at h
      cases hff : findFree grow col with
      | none => rw [hff] at h; simp at h
      | some c =>
        rw [hff] at h
        dsimp only at h
        have hok1 : ∀ row ∈ setCell g i c (some (cellContent cell.txt)),
            ∀ x ∈ row, Q x := setCell_entries Q g i c _ hcell hok
        cases hcs : cell.colspan with
        | none =>
          rw [hcs] at h
          dsimp only at h
          cases hrs : cell.rowspan with
          | none =>
            rw [hrs] at h
            dsimp only at h
            exact ih hrest _ c g' h hok1
          | some nr =>
            rw [hrs] at h
            dsimp only at h
            cases hfr : fillRows (setCell g i c (some (cellContent cell.txt)))
                i c 1 nr with
            | none => rw [hfr] at h; simp at h
            | some g3 =>
              rw [hfr] at h
              dsimp only at h
              exact ih hrest g3 c g' h
                (fillRows_entries Q hcaret _ i c 1 nr g3 hfr hok1)
        | some nc =>
          rw [hcs] at h
          dsimp only at h
          cases hfc : fillCols (setCell g i c (some (cellContent cell.txt)))
              i c 1 nc with
          | none => rw [hfc] at h; simp at h
          | some g2 =>
            rw [hfc] at h
            dsimp only at h
            have hok2 := fillCols_entries Q hnil _ i c 1 nc g2 hfc hok1
            cases hrs : cell.rowspan with
            | none =>
              rw [hrs] at h
              dsimp only at h
              exact ih hrest g2 c g' h hok2
            | some nr =>
              rw [hrs] at h
              dsimp only at h
              cases hfr : fillRows g2 i c 1 nr with
              | none => rw [hfr] at h; simp at h
              | some g3 =>
                rw [hfr] at h
                dsimp only at h
                exact ih hrest g3 c g' h
                  (fillRows_entries Q hcaret g2 i c 1 nr g3 hfr hok2)

theorem buildGridGo_entries (Q : Option Str → Prop) (hnil : Q (some []))
    (hcaret : Q (some ['^'])) (rows : List (List TCell))
    (hcells : ∀ r ∈ rows, ∀ cl ∈ r, Q (some (cellContent cl.txt))) :
    ∀ g i g', buildGridGo g i rows = some g' →
      (∀ row ∈ g, ∀ x ∈ row, Q x) →
      ∀ row ∈ g', ∀ x ∈ row, Q x := by
  induction rows with
  | nil =>
    intro g i g' h hok
    rw [buildGridGo] at h
    cases h
    exact hok
  | cons r rest ih =>
    intro g i g' h hok
    rw [buildGridGo] at h
    cases hp : placeRow g i r 0 with
    | none => rw [hp] at h; simp at h
    | some g1 =>
      rw [hp] at h
      exact ih (fun r2 hr2 cl hcl => hcells r2 (List.mem_cons_of_mem _ hr2) cl hcl)
        g1 (i + 1) g' h
        (placeRow_entries Q hnil hcaret i r
          (fun cl hcl => hcells r (List.mem_cons_self _ _) cl hcl) g 0 g1 hp hok)

theorem count_pyJoin_pipe (vals : List Str) (hc : ∀ v ∈ vals, '|' ∉ v) :
    (pyJoin ['|'] vals).count '|' = vals.length - 1 := by
  induction vals with
  | nil => rw [pyJoin]; rfl
  | cons v vs ih =>
    cases vs with
    | nil =>
      rw [pyJoin]
      simp [List.count_eq_zero.mpr (hc v (List.mem_cons_self _ _))]
    | cons v2 vs2 =>
      have hcv : '|' ∉ v := hc v (List.mem_cons_self _ _)
      have hrest : ∀ x ∈ v2 :: vs2, '|' ∉ x :=
        fun x hx => hc x (List.mem_cons_of_mem _ hx)
      rw [pyJoin, List.count_append, List.count_append,
        List.count_eq_zero.mpr hcv, ih hrest]
      have h1 : (['|'] : Str).count '|' = 1 := by decide
      rw [h1]
      simp only [List.length_cons]
      omega

theorem emitRow_some_count (row : List (Option Str)) (l : Str) (n : Nat)
    (h : emitRow row = some l) (hlen : row.length = n) (hn : 1 ≤ n)
    (hclean : ∀ v ∈ row, ∀ s, v = some s → '|' ∉ s) :
    l.count '|' = n + 1 := by
  unfold emitRow at h
  split at h
  · cases h
    have hmap : ∀ v ∈ row.map (fun o => o.getD []), '|' ∉ v := by
      intro v hv
      rcases List.mem_map.mp hv with ⟨o, ho, rfl⟩
      cases o with
      | none => simp
      | some s => exact hclean _ ho s rfl
    rw [List.count_append, List.count_cons_self,
      count_pyJoin_pipe _ hmap]
    have h1 : (['|'] : Str).count '|' = 1 := by decide
    rw [h1, List.length_map, hlen]
    omega
  · cases h

theorem sepRow_count (n : Nat) (hn : 1 ≤ n) : (sepRow n).count '|' = n + 1 := by
  unfold sepRow
  have hmap : ∀ v ∈ List.replicate n (lit ("---")), '|' ∉ v := by
    intro v hv
    rw [List.eq_of_mem_replicate hv]
    decide
  rw [List.count_append, List.count_cons_self, count_pyJoin_pipe _ hmap]
  have h1 : (['|'] : Str).count '|' = 1 := by decide
  rw [h1, List.length_replicate]
  omega

theorem mapM_emitRow_facts (g : Grid) :
    ∀ lines, g.mapM emitRow = some lines →
      lines.length = g.length ∧
      ∀ l ∈ lines, ∃ row ∈ g, emitRow row = some l := by
  induction g with
  | nil =>
    intro lines h
    rw [List.mapM_nil] at h
    cases h
    exact ⟨rfl, by simp⟩
  | cons r g2 ih =>
    intro lines h
    rw [List.mapM_cons] at h
    cases hb : emitRow r with
    | none => rw [hb] at h; simp at h
    | some b =>
      rw [hb] at h
      cases hg2 : g2.mapM emitRow with
      | none => rw [hg2] at h; simp at h
      | some bs =>
        rw [hg2] at h
        simp only [Option.bind_eq_bind, Option.some_bind, Option.pure_def,
          Option.some.injEq] at h
        subst h
        obtain ⟨hl, hmem⟩ := ih bs hg2
        constructor
        · simp [hl]
        · intro l hlm
          rcases List.mem_cons.mp hlm with rfl | hlm2
          · exact ⟨r, List.mem_cons_self _ _, hb⟩
          · obtain ⟨row, hrow, he⟩ := hmem l hlm2
            exact ⟨row, List.mem_cons_of_mem _ hrow, he⟩

theorem findFree_nil (col : Nat) : findFree ([] : List (Option Str)) col = none := by
  rw [findFree.eq_def]
  rfl

theorem buildGridGo_rows_empty (rows : List (List TCell)) :
    ∀ g i g', buildGridGo g i rows = some g' →
      (∀ row ∈ g, row.length = 0) → ∀ r ∈ rows, r = [] := by
  induction rows with
  | nil => intro g i g' h hok r hr; cases hr
  | cons r rest ih =>
    intro g i g' h hok r2 hr2
    rw [buildGridGo] at h
    cases hp : placeRow g i r 0 with
    | none => rw [hp] at h; simp at h
    | some g1 =>
      rw [hp] at h
      rcases List.mem_cons.mp hr2 with rfl | hmem
      · cases hr2cases : r2 with
        | nil => rfl
        | cons cell cs =>
          exfalso
          rw [hr2cases] at hp
          rw [placeRow] at hp
          cases hgi : g[i]? with
          | none => rw [hgi] at hp; simp at hp
          | some grow =>
            rw [hgi] at hp
            dsimp only at hp
            have hgrowmem : grow ∈ g := by
              obtain ⟨hlt, heq⟩ := List.getElem?_eq_some_iff.mp hgi
              exact heq ▸ List.getElem_mem hlt
            have hgrow : grow = [] :=
              List.length_eq_zero.mp (hok grow hgrowmem)
            rw [hgrow, findFree_nil] at hp
            simp at hp
      · exact ih g1 (i + 1) g' h
          (placeRow_shape 0 i r g 0 g1 hp hok).2 r2 hmem

/-- Reduction of `_parse_table` to the grid branch whenever the input is
not empty and not a single one-cell row. -/
theorem parse_table_grid_eq (first : List TCell) (rest : List (List TCell))
    (hshape : rest ≠ [] ∨ 2 ≤ first.length ∨ first = []) :
    _parse_table (first :: rest) =
      match buildGridGo
          (List.replicate (first :: rest).length
            (List.replicate (nColsOf first) none)) 0 (first :: rest) with
      | none => none
      | some g =>
        match g.mapM emitRow with
        | none => none
        | some lines0 =>
          some ('\n' :: pyJoin ['\n']
            (insertSep lines0 (sepRow (g.headD []).length)) ++ lit ("\n\n")) := by
  cases first with
  | nil =>
    cases rest with
    | nil => rfl
    | cons r0 r' => rfl
  | cons c0 f' =>
    cases f' with
    | cons c1 f'' =>
      cases rest with
      | nil => rfl
      | cons r0 r' => rfl
    | nil =>
      cases rest with
      | cons r0 r' => rfl
      | nil =>
        rcases hshape with h | h | h
        · exact absurd rfl h
        · simp at h
        · cases h

/-- C2 (amended): for a table input of more than one cell whose grid
construction and emission succeed, the produced grid has equal row
lengths, the emitted pipe table has `rows + 1` lines (the all-dashes
separator inserted after the first), and — provided no cell's rendered
text contains a pipe character — every line carries exactly
`columns + 1` pipe characters, where `columns` is the sum of the first
row's colspan values. -/
theorem c2_parse_table_shape (first : List TCell) (rest : List (List TCell))
    (g : Grid) (lines : List Str)
    (hcount : 1 < ((first :: rest).map List.length).sum)
    (hbuild : buildGridGo
      (List.replicate (first :: rest).length
        (List.replicate (nColsOf first) none)) 0 (first :: rest) = some g)
    (hemit : g.mapM emitRow = some lines)
    (hpipe : ∀ r ∈ first :: rest, ∀ cl ∈ r, '|' ∉ cl.txt) :
    (∀ row ∈ g, row.length = nColsOf first) ∧
    _parse_table (first :: rest) =
      some ('\n' :: pyJoin ['\n']
        (insertSep lines (sepRow (nColsOf first))) ++ lit ("\n\n")) ∧
    (insertSep lines (sepRow (nColsOf first))).length =
      (first :: rest).length + 1 ∧
    ∀ l ∈ insertSep lines (sepRow (nColsOf first)),
      l.count '|' = nColsOf first + 1 := by
  have hinitok : ∀ row ∈ List.replicate (first :: rest).length
      (List.replicate (nColsOf first) (none : Option Str)),
      row.length = nColsOf first := by
    intro row hrow
    rw [List.eq_of_mem_replicate hrow, List.length_replicate]
  obtain ⟨hglen, hgok⟩ :=
    buildGridGo_shape (nColsOf first) (first :: rest) _ 0 g hbuild hinitok
  rw [List.length_replicate] at hglen
  -- the column count is positive
  have hncols : 1 ≤ nColsOf first := by
    by_contra hlt
    have hzero : nColsOf first = 0 := by omega
    have hinit0 : ∀ row ∈ List.replicate (first :: rest).length
        (List.replicate (nColsOf first) (none : Option Str)),
        row.length = 0 := by
      intro row hrow
      rw [List.eq_of_mem_replicate hrow, List.length_replicate, hzero]
    have hempty := buildGridGo_rows_empty (first :: rest) _ 0 g hbuild hinit0
    have hsum : ((first :: rest).map List.length).sum = 0 := by
      apply List.sum_eq_zero
      intro x hx
      rcases List.mem_map.mp hx with ⟨r, hr, rfl⟩
      rw [hempty r hr]
      rfl
    omega
  -- the grid and the emitted lines are non-empty
  obtain ⟨r0, g', rfl⟩ : ∃ r0 g', g = r0 :: g' := by
    cases g with
    | nil => simp at hglen
    | cons r0 g' => exact ⟨r0, g', rfl⟩
  obtain ⟨hlineslen, hlinesmem⟩ := mapM_emitRow_facts _ lines hemit
  obtain ⟨l0, ls, rfl⟩ : ∃ l0 ls, lines = l0 :: ls := by
    cases lines with
    | nil => simp at hlineslen
    | cons l0 ls => exact ⟨l0, ls, rfl⟩
  -- shape of the input: more than one cell rules out the 1×1 branch
  have hshape : rest ≠ [] ∨ 2 ≤ first.length ∨ first = [] := by
    cases rest with
    | cons r0 r' => exact Or.inl (by simp)
    | nil =>
      cases first with
      | nil => exact Or.inr (Or.inr rfl)
      | cons c0 f' =>
        cases f' with
        | cons c1 f'' => exact Or.inr (Or.inl (by simp))
        | nil => simp at hcount
  have hhead : (List.headD (r0 :: g') []).length = nColsOf first :=
    hgok r0 (List.mem_cons_self _ _)
  refine ⟨hgok, ?_, ?_, ?_⟩
  · rw [parse_table_grid_eq first rest hshape, hbuild]
    dsimp only
    rw [hemit]
    dsimp only
    rw [hhead]
  · rw [insertSep]
    simp only [List.length_cons] at hlineslen hglen ⊢
    omega
  · -- pipe counts
    have hclean : ∀ row ∈ r0 :: g', ∀ x ∈ row, ∀ s, x = some s → '|' ∉ s := by
      refine buildGridGo_entries
        (fun v => ∀ s, v = some s → '|' ∉ s) ?_ ?_ (first :: rest) ?_ _ 0 _
        hbuild ?_
      · intro s hs
        cases hs
        simp
      · intro s hs
        cases hs
        decide
      · intro r hr cl hcl s hs
        cases hs
        exact cellContent_no_pipe _ (hpipe r hr cl hcl)
      · intro row hrow x hx s hs
        rw [List.eq_of_mem_replicate hrow] at hx
        rw [List.eq_of_mem_replicate hx] at hs
        cases hs
    intro l hl
    rw [insertSep] at hl
    rcases List.mem_cons.mp hl with rfl | hl2
    · -- the first data line
      obtain ⟨row, hrow, he⟩ := hlinesmem l (List.mem_cons_self _ _)
      exact emitRow_some_count row l (nColsOf first) he (hgok row hrow) hncols
        (hclean row hrow)
    · rcases List.mem_cons.mp hl2 with rfl | hl3
      · exact sepRow_count _ hncols
      · obtain ⟨row, hrow, he⟩ := hlinesmem l (List.mem_cons_of_mem _ hl3)
        exact emitRow_some_count row l (nColsOf first) he (hgok row hrow) hncols
          (hclean row hrow)

/-- `findFree` stops at an unset slot. -/
theorem findFree_at_none (row : List (Option Str)) (col : Nat)
    (h : row[col]? = some none) : findFree row col = some col := by
  rw [findFree.eq_def]
  split <;> simp_all

/-- `findFree` skips a filled slot. -/
theorem findFree_at_some (row : List (Option Str)) (col : Nat) (s : Str)
    (h : row[col]? = some (some s)) :
    findFree row col = findFree row (col + 1) := by
  rw [findFree.eq_def]
  split <;> simp_all

/-- `cellContent` is the identity on a single harmless character. -/
theorem cellContent_single (c : Char) (hws : isWs c = false)
    (hn : c ≠ '\n') (hp : c ≠ '|') : cellContent [c] = [c] := by
  have h0 : pyStrip isWs [c] = [c] := by
    simp [pyStrip, List.dropWhile, hws, List.rdropWhile]
  unfold cellContent
  rw [h0]
  dsimp only
  rw [replaceStr_id_of_head_not_mem '\n' [] (lit ("<br>")) [c]
        (by simp only [List.mem_singleton]; exact Ne.symm hn),
      replaceStr_id_of_head_not_mem '|' [] (lit ("\\|")) [c]
        (by simp only [List.mem_singleton]; exact Ne.symm hp)]
  simp

/-- Instantiation of the table-shape theorem on a concrete 2-by-2 table
with single-character, pipe-free cells. -/
theorem c2_parse_table_shape_witness :
    1 < (([[(⟨none, none, ['a']⟩ : TCell), ⟨none, none, ['b']⟩],
          [⟨none, none, ['c']⟩, ⟨none, none, ['d']⟩]]).map List.length).sum ∧
    _parse_table [[⟨none, none, ['a']⟩, ⟨none, none, ['b']⟩],
                  [⟨none, none, ['c']⟩, ⟨none, none, ['d']⟩]] =
      some ('\n' :: pyJoin ['\n']
        (insertSep [lit ("|a|b|"), lit ("|c|d|")]
          (sepRow (nColsOf [⟨none, none, ['a']⟩, ⟨none, none, ['b']⟩]))) ++
        lit ("\n\n")) := by
  refine ⟨by decide, ?_⟩
  have hf1 : findFree [none, none] 0 = some 0 :=
    findFree_at_none [none, none] 0 (by decide)
  have hf2 : findFree [some ['a'], none] 0 = some 1 :=
    (findFree_at_some [some ['a'], none] 0 ['a'] (by decide)).trans
      (findFree_at_none [some ['a'], none] 1 (by decide))
  have hf3 : findFree [some ['c'], none] 0 = some 1 :=
    (findFree_at_some [some ['c'], none] 0 ['c'] (by decide)).trans
      (findFree_at_none [some ['c'], none] 1 (by decide))
  have hca := cellContent_single 'a' (by decide) (by decide) (by decide)
  have hcb := cellContent_single 'b' (by decide) (by decide) (by decide)
  have hcc := cellContent_single 'c' (by decide) (by decide) (by decide)
  have hcd := cellContent_single 'd' (by decide) (by decide) (by decide)
  have hbuild : buildGridGo
      (List.replicate
        ([[(⟨none, none, ['a']⟩ : TCell), ⟨none, none, ['b']⟩],
          [⟨none, none, ['c']⟩, ⟨none, none, ['d']⟩]]).length
        (List.replicate
          (nColsOf [⟨none, none, ['a']⟩, ⟨none, none, ['b']⟩]) none)) 0
      [[⟨none, none, ['a']⟩, ⟨none, none, ['b']⟩],
       [⟨none, none, ['c']⟩, ⟨none, none, ['d']⟩]] =
      some [[some ['a'], some ['b']], [some ['c'], some ['d']]] := by
    show buildGridGo [[none, none], [none, none]] 0 _ = _
    simp [buildGridGo, placeRow, setCell, hf1, hf2, hf3, hca, hcb, hcc, hcd]
  have hemit : ([[some ['a'], some ['b']],
      [some ['c'], some ['d']]] : Grid).mapM emitRow =
      some [lit ("|a|b|"), lit ("|c|d|")] := by decide
  exact (c2_parse_table_shape
    [⟨none, none, ['a']⟩, ⟨none, none, ['b']⟩]
    [[⟨none, none, ['c']⟩, ⟨none, none, ['d']⟩]]
    [[some ['a'], some ['b']], [some ['c'], some ['d']]]
    [lit ("|a|b|"), lit ("|c|d|")]
    (by decide) hbuild hemit (by decide)).2.1

/-- A table cell whose text contains a pipe: the cell renders with an
escaped pipe `\|`, but the escaping backslash does not remove the pipe
character, so the emitted first line carries 4 pipe characters while the
table has 2 columns — the unconditional `columns + 1` pipes-per-line
count asserted for every valid table fails. -/
theorem c2_escaped_pipe_counterexample :
    _parse_table [[⟨none, none, ['a', '|', 'b']⟩, ⟨none, none, ['c']⟩]] =
      some (lit ("\n|a\\|b|c|\n|---|---|\n\n")) ∧
    (lit ("|a\\|b|c|")).count '|' = 4 ∧
    nColsOf [(⟨none, none, ['a', '|', 'b']⟩ : TCell), ⟨none, none, ['c']⟩]
      + 1 = 3 := by
  refine ⟨?_, by decide, by decide⟩
  have hcc2 : cellContent ['a', '|', 'b'] = ['a', '\\', '|', 'b'] := by
    have h0 : pyStrip isWs ['a', '|', 'b'] = ['a', '|', 'b'] := by decide
    unfold cellContent
    rw [h0]
    dsimp only
    rw [replaceStr_id_of_head_not_mem '\n' [] (lit ("<br>"))
          ['a', '|', 'b'] (by decide),
        replaceStr_single '|' (lit ("\\|")) ['a', '|', 'b']]
    decide
  have hcc3 := cellContent_single 'c' (by decide) (by decide) (by decide)
  have hf1 : findFree [none, none] 0 = some 0 :=
    findFree_at_none [none, none] 0 (by decide)
  have hf2 : findFree [some ['a', '\\', '|', 'b'], none] 0 = some 1 :=
    (findFree_at_some [some ['a', '\\', '|', 'b'], none] 0
        ['a', '\\', '|', 'b'] (by decide)).trans
      (findFree_at_none [some ['a', '\\', '|', 'b'], none] 1 (by decide))
  have hbuild : buildGridGo
      (List.replicate
        ([[(⟨none, none, ['a', '|', 'b']⟩ : TCell), ⟨none, none, ['c']⟩]]).length
        (List.replicate
          (nColsOf [(⟨none, none, ['a', '|', 'b']⟩ : TCell),
            ⟨none, none, ['c']⟩]) none)) 0
      [[⟨none, none, ['a', '|', 'b']⟩, ⟨none, none, ['c']⟩]] =
      some [[some ['a', '\\', '|', 'b'], some ['c']]] := by
    show buildGridGo [[none, none]] 0 _ = _
    simp [buildGridGo, placeRow, setCell, hf1, hf2, hcc2, hcc3]
  have hemit : ([[some ['a', '\\', '|', 'b'], some ['c']]] : Grid).mapM
      emitRow = some [lit ("|a\\|b|c|")] := by decide
  rw [parse_table_grid_eq [⟨none, none, ['a', '|', 'b']⟩, ⟨none, none, ['c']⟩]
        [] (Or.inr (Or.inl (by decide))), hbuild]
  dsimp only
  rw [hemit]
  dsimp only
  decide

/-- The triple-backtick prefix test only inspects the first three
characters. -/
theorem fence_prefix_congr (s t : Str) (h : s.take 3 = t.take 3) :
    fenceStr.isPrefixOf s = fenceStr.isPrefixOf t := by
  rw [Bool.eq_iff_iff, List.isPrefixOf_iff_prefix, List.isPrefixOf_iff_prefix,
      List.prefix_iff_eq_take, List.prefix_iff_eq_take]
  have hlen : fenceStr.length = 3 := rfl
  rw [hlen, h]

/-- `take n` of an append only depends on `take n` of the right part. -/
theorem take_append_congr (n : Nat) (t u v : Str) (h : u.take n = v.take n) :
    (t ++ u).take n = (t ++ v).take n := by
  induction t generalizing n with
  | nil => exact h
  | cons x s ih =>
    cases n with
    | zero => rfl
    | succ m =>
      simp only [List.cons_append, List.take_succ_cons]
      have hm : u.take m = v.take m := by
        have h2 := congrArg (List.take m) h
        rw [List.take_take, List.take_take] at h2
        rwa [inf_eq_left.mpr (Nat.le_succ m)] at h2
      rw [ih m hm]

/-- If a prefix contains no triple backtick (even jointly with two
following backticks), the first fence of `a ++ fence ++ r` opens exactly
at `a.length`. -/
theorem firstTriple_append (a r : Str)
    (ha : firstTriple (a ++ [btChar, btChar]) = none) :
    firstTriple (a ++ (fenceStr ++ r)) = some a.length := by
  induction a with
  | nil =>
    show firstTriple (btChar :: (btChar :: (btChar :: r))) = some 0
    rw [firstTriple]
    rw [if_pos]
    simp [fenceStr, List.isPrefixOf]
  | cons x t ih =>
    rw [List.cons_append, firstTriple] at ha
    by_cases hp : fenceStr.isPrefixOf (x :: (t ++ [btChar, btChar])) = true
    · rw [if_pos hp] at ha
      cases ha
    · rw [if_neg hp] at ha
      rw [Option.map_eq_none'] at ha
      have iht := ih ha
      rw [Bool.not_eq_true] at hp
      have htake : (x :: (t ++ [btChar, btChar])).take 3 =
          (x :: (t ++ (fenceStr ++ r))).take 3 := by
        show x :: (t ++ [btChar, btChar]).take 2 =
          x :: (t ++ (fenceStr ++ r)).take 2
        exact congrArg _ (take_append_congr 2 t _ _ rfl)
      have hcond : fenceStr.isPrefixOf (x :: (t ++ (fenceStr ++ r))) = false :=
        (fence_prefix_congr _ _ htake).symm.trans hp
      rw [List.cons_append, firstTriple, hcond]
      simp only [Bool.false_eq_true, if_false]
      rw [iht]
      simp

/-- C7: the hard-break substitution never reaches inside a fenced code
block.  For a document `a ++ fence ++ b ++ fence ++ c` whose pre-text
contains no (even boundary-straddling) triple backtick and whose
non-empty code body contains none after its first character,
`_replace_cr_except_code` rewrites only the pre-text, passes the fenced
block through verbatim — every newline inside it untouched, no hard-break
marker inserted — and recurses on the tail. -/
theorem c7_code_fence_passthrough (a b c cr : Str)
    (ha : firstTriple (a ++ [btChar, btChar]) = none)
    (hb : b ≠ [])
    (hb2 : firstTriple (b.drop 1 ++ [btChar, btChar]) = none) :
    _replace_cr_except_code (a ++ fenceStr ++ b ++ fenceStr ++ c) cr =
      transformSeg cr a ++ fenceStr ++ b ++ fenceStr ++
        _replace_cr_except_code c cr := by
  have hblen : 0 < b.length := List.length_pos.mpr hb
  have h_open : firstTriple (a ++ (fenceStr ++ (b ++ (fenceStr ++ c)))) =
      some a.length := firstTriple_append a (b ++ (fenceStr ++ c)) ha
  have htake_p : (a ++ (fenceStr ++ (b ++ (fenceStr ++ c)))).take a.length =
      a := List.take_left _ _
  have hdrop_p : (a ++ (fenceStr ++ (b ++ (fenceStr ++ c)))).drop a.length =
      fenceStr ++ (b ++ (fenceStr ++ c)) := List.drop_left _ _
  have hdrop1 : (b ++ (fenceStr ++ c)).drop 1 =
      b.drop 1 ++ (fenceStr ++ c) := by
    cases b with
    | nil => exact absurd rfl hb
    | cons y t => rfl
  have hdrop4 : (a ++ (fenceStr ++ (b ++ (fenceStr ++ c)))).drop
      (a.length + 4) = b.drop 1 ++ (fenceStr ++ c) := by
    rw [List.drop_append 4]
    have h4 : (fenceStr ++ (b ++ (fenceStr ++ c))).drop 4 =
        (b ++ (fenceStr ++ c)).drop 1 := rfl
    rw [h4, hdrop1]
  have h_close : firstTriple ((a ++ (fenceStr ++ (b ++ (fenceStr ++ c)))).drop
      (a.length + 4)) = some (b.drop 1).length := by
    rw [hdrop4]
    exact firstTriple_append (b.drop 1) c hb2
  have htake_mid : ((a ++ (fenceStr ++ (b ++ (fenceStr ++ c)))).drop
        a.length).take (a.length + 4 + (b.drop 1).length + 3 - a.length) =
      fenceStr ++ (b ++ fenceStr) := by
    rw [hdrop_p]
    have harith : a.length + 4 + (b.drop 1).length + 3 - a.length =
        b.length + 6 := by
      simp only [List.length_drop]
      omega
    rw [harith,
      show fenceStr ++ (b ++ (fenceStr ++ c)) =
        (fenceStr ++ (b ++ fenceStr)) ++ c from by simp [List.append_assoc]]
    refine List.take_left' ?_
    simp [fenceStr]
  have hdrop_end : (a ++ (fenceStr ++ (b ++ (fenceStr ++ c)))).drop
      (a.length + 4 + (b.drop 1).length + 3) = c := by
    rw [show a ++ (fenceStr ++ (b ++ (fenceStr ++ c))) =
      (a ++ (fenceStr ++ (b ++ fenceStr))) ++ c from by
        simp [List.append_assoc]]
    refine List.drop_left' ?_
    simp [fenceStr]
    omega
  simp only [List.append_assoc]
  rw [_replace_cr_except_code.eq_def]
  split
  · rename_i heq
    rw [h_open] at heq
    cases heq
  · rename_i p heq
    have hp := (h_open.symm.trans heq)
    injection hp with hp
    subst hp
    split
    · rename_i heq2
      rw [h_close] at heq2
      cases heq2
    · rename_i q heq2
      have hq := (h_close.symm.trans heq2)
      injection hq with hq
      subst hq
      rw [htake_p, htake_mid, hdrop_end]
      simp [List.append_assoc]

/-- Instantiation of the fenced-block pass-through on a concrete
document whose code body holds a single newline. -/
theorem c7_code_fence_passthrough_witness :
    (firstTriple ((['x'] : Str) ++ [btChar, btChar]) = none ∧
     (['u', '\n', 'v'] : Str) ≠ [] ∧
     firstTriple ((['u', '\n', 'v'] : Str).drop 1 ++ [btChar, btChar]) =
       none) ∧
    _replace_cr_except_code
        ((['x'] : Str) ++ fenceStr ++ ['u', '\n', 'v'] ++ fenceStr ++ ['z'])
        (lit ("<br>")) =
      transformSeg (lit ("<br>")) ['x'] ++ fenceStr ++ ['u', '\n', 'v'] ++
        fenceStr ++ _replace_cr_except_code ['z'] (lit ("<br>")) :=
  ⟨⟨by decide, by decide, by decide⟩,
   c7_code_fence_passthrough ['x'] ['u', '\n', 'v'] ['z'] (lit ("<br>"))
     (by decide) (by decide) (by decide)⟩

/-- Replacing every non-breaking space leaves none behind. -/
theorem replace_nbsp_no_nbsp (s : Str) :
    nbspChar ∉ replaceStr s [nbspChar] (lit ("&nbsp;")) := by
  rw [replaceStr_single]
  intro h
  rcases List.mem_flatMap.mp h with ⟨d, hd, hin⟩
  by_cases hdc : d = nbspChar
  · rw [if_pos hdc] at hin
    exact absurd hin (by decide)
  · rw [if_neg hdc] at hin
    exact hdc (List.mem_singleton.mp hin).symm

/-- `replaceStr` introduces no character outside its replacement. -/
theorem replaceStr_no_new_char {c : Char} (s pat rep : Str)
    (hs : c ∉ s) (hrep : c ∉ rep) : c ∉ replaceStr s pat rep :=
  fun h => (mem_replaceStr s pat rep h).elim hs hrep

/-- The nbsp-to-space substitution introduces no non-breaking space. -/
theorem subNbspSpace_no_nbsp : ∀ s : Str, nbspChar ∉ s →
    nbspChar ∉ subNbspSpace s := by
  intro s
  induction s using subNbspSpace.induct with
  | case1 =>
    intro h
    rw [subNbspSpace]
    exact h
  | case2 c rest hpre after hcls ih =>
    intro h
    rw [subNbspSpace, if_pos hpre]
    dsimp only
    rw [if_pos hcls]
    intro hmem
    rcases List.mem_cons.mp hmem with heq | hmem2
    · exact absurd heq (by decide)
    · exact ih (fun hin => h (List.mem_of_mem_drop hin)) hmem2
  | case3 c rest hpre after hcls ih =>
    intro h
    rw [subNbspSpace, if_pos hpre]
    dsimp only
    rw [if_neg hcls]
    intro hmem
    rcases List.mem_cons.mp hmem with heq | hmem2
    · exact h (heq ▸ List.mem_cons_self c rest)
    · exact ih (fun hin => h (List.mem_cons_of_mem _ hin)) hmem2
  | case4 c rest hpre ih =>
    intro h
    rw [subNbspSpace, if_neg hpre]
    intro hmem
    rcases List.mem_cons.mp hmem with heq | hmem2
    · exact h (heq ▸ List.mem_cons_self c rest)
    · exact ih (fun hin => h (List.mem_cons_of_mem _ hin)) hmem2

/-- The trailing-space substitution introduces no non-breaking space. -/
theorem subTrailingSpaces_no_nbsp : ∀ s : Str, nbspChar ∉ s →
    nbspChar ∉ subTrailingSpaces s := by
  intro s
  induction s using subTrailingSpaces.induct with
  | case1 =>
    intro h
    rw [subTrailingSpaces]
    exact h
  | case2 rest run after hnl ih =>
    intro h
    rw [subTrailingSpaces, if_pos rfl]
    dsimp only
    rw [if_pos hnl]
    intro hmem
    rcases List.mem_cons.mp hmem with heq | hmem2
    · exact absurd heq (by decide)
    · exact ih (fun hin => h (List.mem_cons_of_mem _
        (List.mem_of_mem_drop (List.mem_of_mem_drop hin)))) hmem2
  | case3 rest run after hnl ih =>
    intro h
    rw [subTrailingSpaces, if_pos rfl]
    dsimp only
    rw [if_neg hnl]
    intro hmem
    rcases List.mem_cons.mp hmem with heq | hmem2
    · exact absurd heq (by decide)
    · exact ih (fun hin => h (List.mem_cons_of_mem _ hin)) hmem2
  | case4 c rest hsp ih =>
    intro h
    rw [subTrailingSpaces, if_neg hsp]
    intro hmem
    rcases List.mem_cons.mp hmem with heq | hmem2
    · exact h (heq ▸ List.mem_cons_self c rest)
    · exact ih (fun hin => h (List.mem_cons_of_mem _ hin)) hmem2

/-- The tail returned by `loneNbspTail` is made of characters of the
input. -/
theorem loneNbspTail_subset (rest : Str)
    (t : { t : Str // t.length ≤ rest.length })
    (h : loneNbspTail rest = some t) : ∀ x ∈ t.1, x ∈ rest := by
  unfold loneNbspTail at h
  dsimp only at h
  split at h
  · cases h
  · split at h
    · injection h with h
      intro x hx
      rw [← h] at hx
      dsimp only at hx
      have h1 := List.mem_of_mem_drop hx
      have h2 := (List.dropWhile_sublist (fun x => x = '*')).subset h1
      have h3 := List.mem_of_mem_drop h2
      exact (List.dropWhile_sublist (fun x => x = '*')).subset h3
    · cases h

/-- The lone-nbsp-line substitution introduces no non-breaking space. -/
theorem subLoneNbsp_no_nbsp : ∀ s : Str, nbspChar ∉ s →
    nbspChar ∉ subLoneNbsp s := by
  intro s
  induction s using subLoneNbsp.induct with
  | case1 =>
    intro h
    rw [subLoneNbsp]
    exact h
  | case2 rest t heq ih =>
    intro h
    rw [subLoneNbsp, if_pos rfl, heq]
    intro hmem
    rcases List.mem_cons.mp hmem with h1 | hmem2
    · exact absurd h1 (by decide)
    · rcases List.mem_cons.mp hmem2 with h2 | hmem3
      · exact absurd h2 (by decide)
      · exact ih (fun hin => h (List.mem_cons_of_mem _
          (loneNbspTail_subset rest t heq _ hin))) hmem3
  | case3 rest heq ih =>
    intro h
    rw [subLoneNbsp, if_pos rfl, heq]
    intro hmem
    rcases List.mem_cons.mp hmem with h1 | hmem2
    · exact absurd h1 (by decide)
    · exact ih (fun hin => h (List.mem_cons_of_mem _ hin)) hmem2
  | case4 c rest hnc ih =>
    intro h
    rw [subLoneNbsp, if_neg hnc]
    intro hmem
    rcases List.mem_cons.mp hmem with h1 | hmem2
    · exact h (h1 ▸ List.mem_cons_self c rest)
    · exact ih (fun hin => h (List.mem_cons_of_mem _ hin)) hmem2

/-- The newline-collapsing substitution introduces no non-breaking
space. -/
theorem subMultiNewline_no_nbsp : ∀ s : Str, nbspChar ∉ s →
    nbspChar ∉ subMultiNewline s := by
  intro s
  induction s using subMultiNewline.induct with
  | case1 =>
    intro h
    rw [subMultiNewline]
    exact h
  | case2 rest run hrun ih =>
    intro h
    rw [subMultiNewline, if_pos rfl]
    dsimp only
    rw [if_pos hrun]
    intro hmem
    rcases List.mem_cons.mp hmem with h1 | hmem2
    · exact absurd h1 (by decide)
    · rcases List.mem_cons.mp hmem2 with h2 | hmem3
      · exact absurd h2 (by decide)
      · exact ih (fun hin => h (List.mem_cons_of_mem _
          (List.mem_of_mem_drop hin))) hmem3
  | case3 rest run hrun ih =>
    intro h
    rw [subMultiNewline, if_pos rfl]
    dsimp only
    rw [if_neg hrun]
    intro hmem
    rcases List.mem_cons.mp hmem with h1 | hmem2
    · exact absurd h1 (by decide)
    · exact ih (fun hin => h (List.mem_cons_of_mem _ hin)) hmem2
  | case4 c rest hnc ih =>
    intro h
    rw [subMultiNewline, if_neg hnc]
    intro hmem
    rcases List.mem_cons.mp hmem with h1 | hmem2
    · exact h (h1 ▸ List.mem_cons_self c rest)
    · exact ih (fun hin => h (List.mem_cons_of_mem _ hin)) hmem2

/-- The space-insertion after a newline introduces no non-breaking
space. -/
theorem subNbspLineStart_no_nbsp : ∀ s : Str, nbspChar ∉ s →
    nbspChar ∉ subNbspLineStart s := by
  intro s
  induction s using subNbspLineStart.induct with
  | case1 =>
    intro h
    rw [subNbspLineStart]
    exact h
  | case2 c rest hcond ih =>
    intro h
    rw [subNbspLineStart, if_pos hcond]
    intro hmem
    rcases List.mem_cons.mp hmem with h1 | hmem2
    · exact absurd h1 (by decide)
    · rcases List.mem_cons.mp hmem2 with h2 | hmem3
      · exact absurd h2 (by decide)
      · rcases List.mem_append.mp hmem3 with h3 | hmem4
        · exact absurd h3 (by decide)
        · exact ih (fun hin => h (List.mem_cons_of_mem _
            (List.mem_of_mem_drop hin))) hmem4
  | case3 c rest hcond ih =>
    intro h
    rw [subNbspLineStart, if_neg hcond]
    intro hmem
    rcases List.mem_cons.mp hmem with h1 | hmem2
    · exact h (h1 ▸ List.mem_cons_self c rest)
    · exact ih (fun hin => h (List.mem_cons_of_mem _ hin)) hmem2

/-- The explicit-indent string contains no raw non-breaking space. -/
theorem nbspRepeat_no_nbsp (n : Nat) : nbspChar ∉ nbspRepeat n := by
  induction n with
  | zero =>
    rw [nbspRepeat]
    exact List.not_mem_nil _
  | succ m ih =>
    rw [nbspRepeat]
    intro hmem
    rcases List.mem_append.mp hmem with h1 | h2
    · exact absurd h1 (by decide)
    · exact ih h2

/-- The pieces returned by `indentMimicParts` are drawn from the
input. -/
theorem indentMimicParts_subset (rest : Str) (pr : Nat × Char)
    (t : { t : Str // t.length ≤ rest.length })
    (h : indentMimicParts rest = some (pr, t)) :
    pr.2 ∈ rest ∧ ∀ x ∈ t.1, x ∈ rest := by
  unfold indentMimicParts at h
  split at h
  · dsimp only at h
    generalize hhd : (((rest.drop 1).drop
      ((rest.drop 1).takeWhile (fun x => x = ' ')).length)).head? = o at h
    match o with
    | some ch =>
      dsimp only at h
      split at h
      · obtain ⟨n0, ch0⟩ := pr
        obtain ⟨tv, tp⟩ := t
        injection h with h
        simp only [Prod.mk.injEq, Subtype.mk.injEq] at h
        obtain ⟨⟨hn0, hch0⟩, htv⟩ := h
        constructor
        · show ch0 ∈ rest
          rw [← hch0]
          have hch : ch ∈ (rest.drop 1).drop
              ((rest.drop 1).takeWhile (fun x => x = ' ')).length := by
            rcases hafter : (rest.drop 1).drop
                ((rest.drop 1).takeWhile (fun x => x = ' ')).length
              with _ | ⟨y, ys⟩
            · rw [hafter] at hhd
              cases hhd
            · rw [hafter] at hhd
              injection hhd with hhd
              rw [hhd]
              exact List.mem_cons_self _ _
          exact List.mem_of_mem_drop (List.mem_of_mem_drop hch)
        · intro x hx
          have hx2 : x ∈ tv := hx
          rw [← htv] at hx2
          exact List.mem_of_mem_drop (List.mem_of_mem_drop
            (List.mem_of_mem_drop hx2))
      · cases h
    | none =>
      dsimp only at h
      cases h
  · cases h

/-- The indent-mimicking substitution introduces no non-breaking
space. -/
theorem subIndentMimic_no_nbsp : ∀ s : Str, nbspChar ∉ s →
    nbspChar ∉ subIndentMimic s := by
  intro s
  induction s using subIndentMimic.induct with
  | case1 =>
    intro h
    rw [subIndentMimic]
    exact h
  | case2 rest pr t heq ih =>
    intro h
    rw [subIndentMimic, if_pos rfl, heq]
    obtain ⟨hch, hsub⟩ := indentMimicParts_subset rest pr t heq
    intro hmem
    rcases List.mem_cons.mp hmem with h1 | hmem2
    · exact absurd h1 (by decide)
    · rcases List.mem_cons.mp hmem2 with h2 | hmem3
      · exact absurd h2 (by decide)
      · rcases List.mem_cons.mp hmem3 with h3 | hmem4
        · exact absurd h3 (by decide)
        · rcases List.mem_append.mp hmem4 with h4 | hmem5
          · exact absurd h4 (nbspRepeat_no_nbsp pr.1)
          · rcases List.mem_cons.mp hmem5 with h5 | hmem6
            · exact h (List.mem_cons_of_mem _ (by rw [h5]; exact hch))
            · exact ih (fun hin => h (List.mem_cons_of_mem _
                (hsub _ hin))) hmem6
  | case3 rest heq ih =>
    intro h
    rw [subIndentMimic, if_pos rfl, heq]
    intro hmem
    rcases List.mem_cons.mp hmem with h1 | hmem2
    · exact absurd h1 (by decide)
    · exact ih (fun hin => h (List.mem_cons_of_mem _ hin)) hmem2
  | case4 c rest hnc ih =>
    intro h
    rw [subIndentMimic, if_neg hnc]
    intro hmem
    rcases List.mem_cons.mp hmem with h1 | hmem2
    · exact h (h1 ▸ List.mem_cons_self c rest)
    · exact ih (fun hin => h (List.mem_cons_of_mem _ hin)) hmem2

/-- The hard-break substitution introduces no non-breaking space beyond
its marker argument. -/
theorem subHardBreak_no_nbsp : ∀ (cr s : Str), nbspChar ∉ cr →
    nbspChar ∉ s → nbspChar ∉ subHardBreak cr s := by
  intro cr s
  induction s using subHardBreak.induct with
  | cr => exact cr
  | case1 =>
    intro hcr h
    rw [subHardBreak]
    exact h
  | case2 c rest hcond ih =>
    intro hcr h
    rw [subHardBreak, if_pos hcond]
    intro hmem
    rcases List.mem_cons.mp hmem with h1 | hmem2
    · exact h (h1 ▸ List.mem_cons_self c rest)
    · rcases List.mem_cons.mp hmem2 with h2 | hmem3
      · exact absurd h2 (by decide)
      · rcases List.mem_append.mp hmem3 with h3 | hmem4
        · exact hcr h3
        · rcases List.mem_cons.mp hmem4 with h4 | hmem5
          · exact absurd h4 (by decide)
          · exact ih hcr (fun hin => h (List.mem_cons_of_mem _
              (List.mem_of_mem_drop hin))) hmem5
  | case3 c rest hcond ih =>
    intro hcr h
    rw [subHardBreak, if_neg hcond]
    intro hmem
    rcases List.mem_cons.mp hmem with h1 | hmem2
    · exact h (h1 ▸ List.mem_cons_self c rest)
    · exact ih hcr (fun hin => h (List.mem_cons_of_mem _ hin)) hmem2

/-- The per-segment rewriting introduces no non-breaking space. -/
theorem transformSeg_no_nbsp (cr seg : Str) (hcr : nbspChar ∉ cr)
    (h : nbspChar ∉ seg) : nbspChar ∉ transformSeg cr seg :=
  subHardBreak_no_nbsp cr _ hcr (subIndentMimic_no_nbsp seg h)

/-- The code-aware hard-break pass introduces no non-breaking space. -/
theorem replace_cr_no_nbsp : ∀ (txt cr : Str), nbspChar ∉ txt →
    nbspChar ∉ cr → nbspChar ∉ _replace_cr_except_code txt cr := by
  intro txt cr
  induction txt, cr using _replace_cr_except_code.induct with
  | case1 txt cr h1 =>
    intro ht hc
    rw [_replace_cr_except_code.eq_def]
    split
    · exact transformSeg_no_nbsp cr txt hc ht
    · rename_i p heq
      rw [h1] at heq
      cases heq
  | case2 txt cr p h1 h2 =>
    intro ht hc
    rw [_replace_cr_except_code.eq_def]
    split
    · exact transformSeg_no_nbsp cr txt hc ht
    · rename_i p' heq
      have hp := h1.symm.trans heq
      injection hp with hp
      subst hp
      rw [h2]
      dsimp only
      exact transformSeg_no_nbsp cr txt hc ht
  | case3 txt cr p h1 q h2 ih =>
    intro ht hc
    rw [_replace_cr_except_code.eq_def]
    split
    · exact transformSeg_no_nbsp cr txt hc ht
    · rename_i p' heq
      have hp := h1.symm.trans heq
      injection hp with hp
      subst hp
      rw [h2]
      dsimp only
      intro hmem
      rcases List.mem_append.mp hmem with hmem1 | hmem2
      · rcases List.mem_append.mp hmem1 with hseg | hmid
        · exact transformSeg_no_nbsp cr _ hc
            (fun hin => ht ((List.take_sublist _ _).subset hin)) hseg
        · exact ht ((List.drop_sublist _ _).subset
            ((List.take_sublist _ _).subset hmid))
      · exact ih (fun hin => ht ((List.drop_sublist _ _).subset hin))
          hc hmem2

/-- C10: `finalize` emits no raw non-breaking space.  The first pipeline
step rewrites every U+00A0 of the input to the literal entity `&nbsp;`,
and no later step — entity/space rewriting, newline collapsing,
indent-mimicking, hard-break insertion (whose marker is assumed free of
raw U+00A0, as the defaults `\\` and `<br>` are) — reintroduces one. -/
theorem c10_finalize_no_nbsp (txt cr : Str) (hcr : nbspChar ∉ cr) :
    nbspChar ∉ finalize txt cr := by
  unfold finalize
  dsimp only
  intro hmem
  rcases List.mem_append.mp hmem with h9 | hnl
  · have h9' := mem_pyStrip isWs _ h9
    rcases List.mem_append.mp h9' with h8 | hnl2
    · refine replace_cr_no_nbsp _ _ ?_ hcr h8
      intro hin
      have h7 := mem_pyStrip isWs _ hin
      revert h7
      refine subNbspLineStart_no_nbsp _ ?_
      refine subMultiNewline_no_nbsp _ ?_
      refine subLoneNbsp_no_nbsp _ ?_
      refine subTrailingSpaces_no_nbsp _ ?_
      refine subNbspSpace_no_nbsp _ ?_
      refine replaceStr_no_new_char _ _ _ ?_ (by decide)
      refine replaceStr_no_new_char _ _ _ ?_ (by decide)
      exact replace_nbsp_no_nbsp txt
    · exact absurd (List.mem_singleton.mp hnl2) (by decide)
  · exact absurd (List.mem_singleton.mp hnl) (by decide)

/-- Instantiation of the no-raw-nbsp invariant on an input that contains
a non-breaking space, with the `<br>` hard-break marker. -/
theorem c10_finalize_no_nbsp_witness :
    nbspChar ∉ lit ("<br>") ∧
    nbspChar ∉ finalize [nbspChar, 'x'] (lit ("<br>")) :=
  ⟨by decide, c10_finalize_no_nbsp [nbspChar, 'x'] (lit ("<br>")) (by decide)⟩
